import Mathlib

/-!
Verification development for the obsidian-ai-tools synchronization and
retrieval engine.  The definitions below are a shallow embedding of the
TypeScript sources:

* `src/src/generate-embeddings.ts` — sync pass (`generateEmbeddings`),
  `isFileInDirectories`, `parseMarkdown`, `splitIntoParagraphs`;
* `src/src/semantic-search.ts` and `src/supabase/functions/_shared/search.ts`
  — `semanticSearch` / `generativeSearch`;
* `src/src/main.ts` — the caller of `generativeSearch` (answer display).

External collaborators (hash, YAML parser, embedding / moderation /
chat-completion providers, the vector store's success/failure behaviour,
`path.normalize`) are modelled as explicit environment parameters; every
store mutation is explicit state passing over a `DB` value.
-/

namespace ObsidianAI

/-! ### JavaScript string primitives

`jsWhitespace` is the character class `\s` of JavaScript regular
expressions (also the class trimmed by `String.prototype.trim`). -/

def jsWhitespace (c : Char) : Bool :=
  c = ' ' || c = '\t' || c = '\n' || c = '\r' || c = '\x0b' || c = '\x0c' ||
  c = ' ' || c = ' ' ||
  (0x2000 ≤ c.val && c.val ≤ 0x200a) ||
  c = ' ' || c = ' ' || c = ' ' || c = ' ' ||
  c = '　' || c = '﻿'

/-- The chunk-level counterpart of `String.prototype.trim`. -/
def trimChars (l : List Char) : List Char :=
  ((l.dropWhile jsWhitespace).reverse.dropWhile jsWhitespace).reverse

/-- `s.trim()` of JavaScript. -/
def jsTrim (s : String) : String :=
  String.mk (trimChars s.toList)

/-- `s.replace(/\n/g, " ")`, which is also `s.split("\n").join(" ")`. -/
def nlToSpace (s : String) : String :=
  String.mk (s.toList.map fun c => if c = '\n' then ' ' else c)

/-! ### The blank-line splitter

`splitIntoParagraphs` (generate-embeddings.ts, lines 291–298) is
`text.split(/\r?\n\s*\r?\n/)` followed by a `.trim()` over every piece.
The regex match at a position is: a newline (`\r\n` preferred over `\n`),
then a greedy run of whitespace, then a final newline; the greedy `\s*`
backtracks, so the final newline is the last one inside the whitespace
run following the opening newline. -/

/-- Length (1 or 2) of a `\r?\n` match at the head of the list, `\r\n`
preferred, as the regex engine does. -/
def nlLen : List Char → Option Nat
  | c :: d :: _ =>
    if c = '\r' ∧ d = '\n' then some 2 else if c = '\n' then some 1 else none
  | [c] => if c = '\n' then some 1 else none
  | [] => none

/-- Greedy search for the final `\r?\n` of the separator: try the largest
whitespace consumption `j` first and back off, mirroring the backtracking
of `\s*`.  Returns `(j, m)`: whitespace consumed and final newline length. -/
def bestFinalNl (rest : List Char) : Nat → Option (Nat × Nat)
  | 0 => (nlLen rest).map (fun m => (0, m))
  | j + 1 =>
    match nlLen (rest.drop (j + 1)) with
    | some m => some (j + 1, m)
    | none => bestFinalNl rest j

/-- Length of a `/\r?\n\s*\r?\n/` match starting at the head of `l`,
if any. -/
def sepLen (l : List Char) : Option Nat :=
  match nlLen l with
  | none => none
  | some k =>
    let rest := l.drop k
    match bestFinalNl rest ((rest.takeWhile jsWhitespace).length) with
    | none => none
    | some (j, m) => some (k + j + m)

/-- Leftmost separator match in `l`: `(index, length)`. -/
def sepFind : List Char → Option (Nat × Nat)
  | [] => none
  | c :: rest =>
    match sepLen (c :: rest) with
    | some n => some (0, n)
    | none => (sepFind rest).map (fun p => (p.1 + 1, p.2))

/-- `text.split(/\r?\n\s*\r?\n/)` on character lists.  The fuel argument
is only a structural-recursion device; `splitChunks (l.length + 1) l`
never exhausts it because every step consumes at least one character. -/
def splitChunks : Nat → List Char → List (List Char)
  | 0, l => [l]
  | fuel + 1, l =>
    match sepFind l with
    | none => [l]
    | some (i, n) => l.take i :: splitChunks fuel (l.drop (i + n))

/-- The `paragraphs` local of `splitIntoParagraphs`:
`text.split(/\r?\n\s*\r?\n/)`. -/
def jsSplitBlank (text : String) : List String :=
  (splitChunks (text.toList.length + 1) text.toList).map String.mk

/-- `splitIntoParagraphs` (generate-embeddings.ts, lines 291–298):
split on blank lines, then trim every piece.  No piece is filtered out. -/
def splitIntoParagraphs (text : String) : List String :=
  (jsSplitBlank text).map jsTrim

example : splitIntoParagraphs "a\n\nb" = ["a", "b"] := by decide
example : splitIntoParagraphs "a\n \n\nb\n\nc" = ["a", "b", "c"] := by decide
example : splitIntoParagraphs "a\n\n" = ["a", ""] := by decide
example : splitIntoParagraphs "" = [""] := by decide
example : splitIntoParagraphs "x y\nz" = ["x y\nz"] := by decide

/-! ### Data model of the vector store

One row per document (`document` table) and per paragraph section
(`document_section` table).  `checksum = none` models the SQL `null`
sentinel left in place while a document's sections are being rebuilt. -/

structure Doc where
  id : Nat
  path : String
  checksum : Option String
  meta : String
  public : Bool
  deriving Repr, DecidableEq

structure DocSection where
  document_id : Nat
  content : String
  token_count : Nat
  embedding : List Int
  deriving Repr, DecidableEq

structure DB where
  documents : List Doc
  sections : List DocSection
  nextId : Nat
  deriving Repr, DecidableEq

structure TFile where
  path : String
  content : String
  deriving Repr, DecidableEq

structure EmbeddingResult where
  successCount : Nat
  updatedCount : Nat
  errorCount : Nat
  deleteCount : Nat
  deriving Repr, DecidableEq

/-- Environment of external collaborators for the sync pass: the hash and
YAML primitives, the embedding provider, `path.normalize`, and the vector
store's per-call success/failure behaviour (a `true` failure flag models
the corresponding supabase call returning an `error`; a `none` from
`embed` models a non-200 response or a thrown error). -/
structure Env where
  normalize : String → String
  hash : String → String
  parseYamlOk : String → Option String
  embed : String → Option (Nat × List Int)
  fetchDocFail : String → Bool
  deleteSectionsFail : Nat → Bool
  upsertFail : String → Bool
  insertSectionFail : Nat → String → Bool
  updateAccessFail : Nat → Bool
  updateChecksumFail : Nat → Bool
  listAllFail : Bool
  deleteDocFail : String → Bool

/-! Vector-store operations, as performed by the supabase query-builder
calls in `generateEmbeddings`. -/

/-- `from("document").select(...).filter("path","eq",p).maybeSingle()`. -/
def DB.findByPath (db : DB) (p : String) : Option Doc :=
  db.documents.find? (fun d => d.path == p)

/-- `from("document_section").delete().filter("document_id","eq",id)`. -/
def DB.deleteSectionsFor (db : DB) (id : Nat) : DB :=
  { db with sections := db.sections.filter (fun s => s.document_id != id) }

/-- `from("document").upsert({checksum:null, path, meta, public}, {onConflict:"path"})`:
update the row with this path if present, insert a fresh row otherwise. -/
def DB.upsertByPath (db : DB) (p meta : String) (isPublic : Bool) : DB × Doc :=
  match db.documents.find? (fun d => d.path == p) with
  | some d =>
    let d' : Doc := { d with checksum := none, meta := meta, public := isPublic }
    ({ db with documents := db.documents.map (fun x => if x.id == d.id then d' else x) }, d')
  | none =>
    let d : Doc := ⟨db.nextId, p, none, meta, isPublic⟩
    ({ db with documents := db.documents ++ [d], nextId := db.nextId + 1 }, d)

/-- `from("document_section").insert({...})`. -/
def DB.insertSection (db : DB) (s : DocSection) : DB :=
  { db with sections := db.sections ++ [s] }

/-- `from("document").update({checksum}).filter("id","eq",id)`. -/
def DB.updateChecksum (db : DB) (id : Nat) (c : Option String) : DB :=
  { db with documents :=
      db.documents.map (fun d => if d.id == id then { d with checksum := c } else d) }

/-- `from("document").update({public}).filter("id","eq",id)`. -/
def DB.updateAccess (db : DB) (id : Nat) (b : Bool) : DB :=
  { db with documents :=
      db.documents.map (fun d => if d.id == id then { d with public := b } else d) }

/-- `from("document").delete().eq("path", p)`. -/
def DB.deleteByPath (db : DB) (p : String) : DB :=
  { db with documents := db.documents.filter (fun d => d.path != p) }

/-- Contents of the section rows currently stored for document `id`. -/
def DB.sectionContentsFor (db : DB) (id : Nat) : List String :=
  (db.sections.filter (fun s => s.document_id == id)).map (fun s => s.content)

/-! ### Corpus scanner and markdown parsing -/

/-- `isFileInDirectories` (generate-embeddings.ts, lines 251–264). -/
def isFileInDirectories (env : Env) (filePath : String) (directories : List String) : Bool :=
  let normalizedFilePath := env.normalize filePath
  (directories.map env.normalize).any (fun directory => normalizedFilePath.startsWith directory)

/-- Scan for the earliest closing delimiter `\r?\n---\r?\n` of the
front-matter regex `/^---\r?\n([\s\S]*?)\r?\n---\r?\n/` (the lazy group
stops at the first position where the closing delimiter fits); returns
`(chars-before-delimiter, delimiter-length)`. -/
def fmScan : List Char → Option (Nat × Nat)
  | [] => none
  | '\r' :: '\n' :: '-' :: '-' :: '-' :: '\r' :: '\n' :: _ => some (0, 7)
  | '\r' :: '\n' :: '-' :: '-' :: '-' :: '\n' :: _ => some (0, 6)
  | '\n' :: '-' :: '-' :: '-' :: '\r' :: '\n' :: _ => some (0, 6)
  | '\n' :: '-' :: '-' :: '-' :: '\n' :: _ => some (0, 5)
  | _ :: rest => (fmScan rest).map (fun p => (p.1 + 1, p.2))

/-- Front-matter match on the whole document: opening `---\r?\n`, lazy
body, closing `\r?\n---\r?\n`.  Returns `(group1, rest)`. -/
def fmMatch (markdown : String) : Option (String × String) :=
  let l := markdown.toList
  let openLen : Option Nat :=
    match l with
    | '-' :: '-' :: '-' :: '\r' :: '\n' :: _ => some 5
    | '-' :: '-' :: '-' :: '\n' :: _ => some 4
    | _ => none
  match openLen with
  | none => none
  | some k =>
    let body := l.drop k
    match fmScan body with
    | none => none
    | some (i, n) => some (String.mk (body.take i), String.mk (body.drop (i + n)))

/-- `parseMarkdown` (generate-embeddings.ts, lines 266–289): returns
`(content, JSON.stringify(frontmatter))`.  A YAML parse failure (or an
empty — hence falsy — captured group, per `match && match[1]`) leaves the
content untouched and the front matter empty. -/
def parseMarkdown (env : Env) (markdown : String) : String × String :=
  match fmMatch markdown with
  | some (fm, rest) =>
    if fm == "" then (markdown, "{}")
    else
      match env.parseYamlOk fm with
      | some meta => (rest, meta)
      | none => (markdown, "{}")
  | none => (markdown, "{}")

/-! ### The sync pass (`generateEmbeddings`, generate-embeddings.ts lines 15–249)

Each document is processed inside a `try`: the first failing provider or
store call aborts that document (`Outcome.errored`) with the store left
exactly as the already-executed calls produced it; a failing call itself
mutates nothing. -/

inductive Outcome
  | unchanged
  | accessUpdated
  | reindexed
  | errored
  deriving Repr, DecidableEq

/-- How one document's outcome updates the running `embeddingResult`
tallies (lines 66, 82–83, 196–197, 203). -/
def Outcome.apply (r : EmbeddingResult) : Outcome → EmbeddingResult
  | .unchanged => { r with successCount := r.successCount + 1 }
  | .accessUpdated =>
    { r with successCount := r.successCount + 1, updatedCount := r.updatedCount + 1 }
  | .reindexed =>
    { r with successCount := r.successCount + 1, updatedCount := r.updatedCount + 1 }
  | .errored => { r with errorCount := r.errorCount + 1 }

/-- The per-section loop (lines 139–184): embed the section (newlines
folded to spaces), then insert the section row; the first failure aborts
the loop with `false`, keeping the rows inserted so far. -/
def insertSectionsLoop (env : Env) (docId : Nat) : DB → List String → DB × Bool
  | db, [] => (db, true)
  | db, s :: rest =>
    let input := nlToSpace s
    match env.embed input with
    | none => (db, false)
    | some (tok, vec) =>
      if env.insertSectionFail docId s then (db, false)
      else insertSectionsLoop env docId (db.insertSection ⟨docId, s, tok, vec⟩) rest

/-- Index of the first section whose embedding or insertion fails, if any. -/
def firstFailure (env : Env) (docId : Nat) : List String → Option Nat
  | [] => none
  | s :: rest =>
    match env.embed (nlToSpace s) with
    | none => some 0
    | some _ =>
      if env.insertSectionFail docId s then some 0
      else (firstFailure env docId rest).map (· + 1)

/-- The reindex tail of the per-document body (lines 106–197): parse,
split, upsert the document with `checksum: null`, embed and insert every
section, then set the checksum. -/
def reindex (env : Env) (db : DB) (file : TFile) (checksum : String) (isPublic : Bool) :
    DB × Outcome :=
  let meta := (parseMarkdown env file.content).2
  let sections := splitIntoParagraphs (parseMarkdown env file.content).1
  if env.upsertFail file.path then (db, .errored)
  else
    let up := db.upsertByPath file.path meta isPublic
    let res := insertSectionsLoop env up.2.id up.1 sections
    if !res.2 then (res.1, .errored)
    else if env.updateChecksumFail up.2.id then (res.1, .errored)
    else (res.1.updateChecksum up.2.id (some checksum), .reindexed)

/-- The whole per-document `try` body (lines 38–204). -/
def processFile (env : Env) (publicDirs : List String) (db : DB) (file : TFile) :
    DB × Outcome :=
  if env.fetchDocFail file.path then (db, .errored)
  else
    let markdown := file.content
    let checksum := env.hash markdown
    let isPublic := isFileInDirectories env file.path publicDirs
    match db.findByPath file.path with
    | some d =>
      if d.checksum = some checksum then
        if d.public = isPublic then (db, .unchanged)
        else if env.updateAccessFail d.id then (db, .errored)
        else (db.updateAccess d.id isPublic, .accessUpdated)
      else
        if env.deleteSectionsFail d.id then (db, .errored)
        else reindex env (db.deleteSectionsFor d.id) file checksum isPublic
    | none => reindex env db file checksum isPublic

/-- The document loop (lines 38–205), threading the store state and the
running tallies. -/
def processAll (env : Env) (publicDirs : List String) :
    DB → EmbeddingResult → List TFile → DB × EmbeddingResult
  | db, r, [] => (db, r)
  | db, r, file :: rest =>
    let (db', o) := processFile env publicDirs db file
    processAll env publicDirs db' (o.apply r) rest

/-- The dangling-document loop body (lines 224–246), iterating over the
snapshot returned by the `select` of all documents: a stored path found
among the scanned files is skipped; otherwise the document is deleted —
a failing delete adds to the error tally — and `deleteCount` is
incremented after the attempt in either case. -/
def cleanupLoop (env : Env) (files : List TFile) :
    DB → EmbeddingResult → List Doc → DB × EmbeddingResult
  | db, r, [] => (db, r)
  | db, r, d :: rest =>
    if files.any (fun f => f.path == d.path) then cleanupLoop env files db r rest
    else if env.deleteDocFail d.path then
      cleanupLoop env files db
        { r with errorCount := r.errorCount + 1, deleteCount := r.deleteCount + 1 } rest
    else
      cleanupLoop env files (db.deleteByPath d.path)
        { r with deleteCount := r.deleteCount + 1 } rest

/-- Dangling cleanup (lines 207–247): list all stored documents (a
failing list adds one error and ends the pass), then run the loop. -/
def cleanup (env : Env) (files : List TFile) (db : DB) (r : EmbeddingResult) :
    DB × EmbeddingResult :=
  if env.listAllFail then (db, { r with errorCount := r.errorCount + 1 })
  else cleanupLoop env files db r db.documents

/-- `generateEmbeddings` (lines 15–249): filter out excluded files, run
the document loop from zeroed tallies, then the dangling cleanup. -/
def generateEmbeddings (env : Env) (excludeDirs publicDirs : List String)
    (allFiles : List TFile) (db : DB) : DB × EmbeddingResult :=
  let files := allFiles.filter (fun f => !isFileInDirectories env f.path excludeDirs)
  let pr := processAll env publicDirs db ⟨0, 0, 0, 0⟩ files
  cleanup env files pr.1 pr.2

/-! ### The derived sync-state classification (spec §4.2)

The classification is not stored; it restates the branch conditions of
the per-document body. -/

inductive SyncState
  | unchangedS
  | accessChangedS
  | staleS
  | newS
  deriving Repr, DecidableEq

/-- The Change Detector's classification of a scanned file against the
store, as the branch structure of `processFile` computes it. -/
def classify (env : Env) (publicDirs : List String) (db : DB) (file : TFile) : SyncState :=
  match db.findByPath file.path with
  | none => .newS
  | some d =>
    if d.checksum = some (env.hash file.content) then
      if d.public = isFileInDirectories env file.path publicDirs then .unchangedS
      else .accessChangedS
    else .staleS

/-! ### The read path (`semantic-search.ts`, `supabase/functions/_shared/search.ts`)

The provider calls are modelled by an environment `SEnv`; besides its
`Except` result each function returns the list of provider calls it made,
in order, so that temporal claims (moderation before embedding) are
statable. -/

structure Message where
  content : Option String
  deriving Repr, DecidableEq

structure Choice where
  message : Option Message
  deriving Repr, DecidableEq

/-- A row returned by the `match_document_sections` RPC. -/
structure MatchSec where
  id : Nat
  document_id : Nat
  content : String
  deriving Repr, DecidableEq

structure DocRef where
  id : Nat
  path : String
  deriving Repr, DecidableEq

/-- A match hydrated with its parent document (`section["document"] = document`). -/
structure HSec where
  document_id : Nat
  content : String
  document : DocRef
  deriving Repr, DecidableEq

inductive SearchErr
  | flagged
  | embedFailed
  | retrievalError
  | fetchDocError
  | noChoices
  deriving Repr, DecidableEq

inductive Event
  | moderation (input : String)
  | embedReq (input : String)
  | matchReq (embedding : List Int)
  | docFetch (id : Nat)
  | chatReq (prompt : String)
  deriving Repr, DecidableEq

structure SEnv where
  flagged : String → Bool
  embedOk : String → Bool
  embedVec : String → List Int
  matchRpc : List Int → Rat → Nat → Nat → Except Unit (List MatchSec)
  fetchDoc : Nat → Except Unit DocRef
  encode : String → Nat
  chatChoices : String → List Choice

/-- The hydration loop (`for (const section of documentSections)`); a
failing parent-document fetch is thrown. -/
def hydrateLoop (env : SEnv) : List MatchSec → Except SearchErr (List HSec) × List Event
  | [] => (.ok [], [])
  | s :: rest =>
    match env.fetchDoc s.document_id with
    | .error _ => (.error .fetchDocError, [.docFetch s.document_id])
    | .ok d =>
      match (hydrateLoop env rest).1 with
      | .error e => (.error e, .docFetch s.document_id :: (hydrateLoop env rest).2)
      | .ok hs => (.ok (⟨s.document_id, s.content, d⟩ :: hs),
          .docFetch s.document_id :: (hydrateLoop env rest).2)

/-- The shared tail of both `semanticSearch` variants: embed the
newline-folded query (`throw` on a non-200 status), run the
nearest-neighbor RPC (`throw new Error("Failed to match document
sections")` on a store error), then hydrate each match. -/
def searchCore (env : SEnv) (sq : String) (th : Rat) (cnt minLen : Nat)
    (tr0 : List Event) : Except SearchErr (List HSec) × List Event :=
  let input := nlToSpace sq
  if !env.embedOk input then (.error .embedFailed, tr0 ++ [.embedReq input])
  else
    let vec := env.embedVec input
    match env.matchRpc vec th cnt minLen with
    | .error _ => (.error .retrievalError, tr0 ++ [.embedReq input, .matchReq vec])
    | .ok secs =>
      ((hydrateLoop env secs).1,
        tr0 ++ [.embedReq input, .matchReq vec] ++ (hydrateLoop env secs).2)

/-- `semanticSearch` of the plugin (semantic-search.ts, lines 86–150):
when `sanitize` is set the trimmed query goes through the moderation
gate first; the RPC parameters are the hardcoded `0.78, 10, 50`. -/
def semanticSearchM (env : SEnv) (query : String) (sanitize : Bool) :
    Except SearchErr (List HSec) × List Event :=
  if sanitize then
    let sq := jsTrim query
    if env.flagged sq then (.error .flagged, [.moderation sq])
    else searchCore env sq (78 / 100) 10 50 [.moderation sq]
  else searchCore env query (78 / 100) 10 50 []

/-- `semanticSearch` of the edge function (search.ts, lines 72–122): no
moderation; threshold, count and minimum content length are parameters. -/
def semanticSearchSB (env : SEnv) (query : String) (th : Rat) (cnt minLen : Nat) :
    Except SearchErr (List HSec) × List Event :=
  searchCore env query th cnt minLen []

/-- The context-assembly loop shared by both `generativeSearch` variants
(semantic-search.ts lines 36–51, search.ts lines 29–44): add each ranked
section's token count to the running total, stop as soon as the total
reaches 1500, otherwise append the trimmed content and a delimiter. -/
def contextLoop (encode : String → Nat) : List String → Nat → String → String
  | [], _, ctx => ctx
  | c :: rest, tokenCount, ctx =>
    let tc := tokenCount + encode c
    if 1500 ≤ tc then ctx
    else contextLoop encode rest tc (ctx ++ jsTrim c ++ "\n---\n")

/-- The hardcoded persona preamble of the plugin's `generativeSearch`
(condensed; its exact wording plays no role in any claim). -/
def personaIntro : String :=
  "You are a simulation of Shan, a 22-year-old university student ..."

/-- The `codeBlock` prompt template: preamble, context sections, the
question, and the answer cue. -/
def mkPrompt (intro contextText q : String) : String :=
  intro ++ "\n\nContext sections:\n" ++ contextText ++
    "\n\nQuestion: \"\"\"\n" ++ q ++ "\n\"\"\"\n\nAnswer:"

/-- `generativeSearch` of the plugin (semantic-search.ts, lines 11–84):
moderation gate on the trimmed query, unsanitized retrieval, context
assembly, one chat-completion call, then
`responseJson.choices[0].message?.content` — reading `choices[0]` of an
empty list throws (`SearchErr.noChoices`). -/
def generativeSearchM (env : SEnv) (query : String) :
    Except SearchErr (Option String) × List Event :=
  let sq := jsTrim query
  if env.flagged sq then (.error .flagged, [.moderation sq])
  else
    let sr := semanticSearchM env sq false
    match sr.1 with
    | .error e => (.error e, .moderation sq :: sr.2)
    | .ok ms =>
      let contextText := contextLoop env.encode (ms.map (fun s => s.content)) 0 ""
      let prompt := mkPrompt personaIntro contextText sq
      match env.chatChoices prompt with
      | [] => (.error .noChoices, (.moderation sq :: sr.2) ++ [.chatReq prompt])
      | c :: _ =>
        (.ok (c.message.bind (fun m => m.content)),
          (.moderation sq :: sr.2) ++ [.chatReq prompt])

/-- The caller in `MagicSearchModal.onOpen` (main.ts, lines 223–233):
the awaited answer is displayed, `undefined` replaced by the
`"No answer"` sentinel; a rejected promise escapes the listener and
nothing is displayed (`none`). -/
def onAsk (env : SEnv) (query : String) : Option String :=
  match (generativeSearchM env query).1 with
  | .error _ => none
  | .ok a => some (a.getD "No answer")

/-! ### Auxiliary predicates and spec-side definitions -/

/-- Store well-formedness: `id` is a primary key, `path` a unique key,
and `nextId` is fresh.  These are the uniqueness guarantees of the
`document` table (spec §3: `path` is the sole identity). -/
def DB.WF (db : DB) : Prop :=
  db.documents.Pairwise (fun a b => a.id ≠ b.id ∧ a.path ≠ b.path) ∧
  (∀ d ∈ db.documents, d.id < db.nextId) ∧
  (∀ s ∈ db.sections, s.document_id < db.nextId)

/-- Every provider and store call succeeds. -/
def Env.AllOk (env : Env) : Prop :=
  (∀ p, env.fetchDocFail p = false) ∧
  (∀ s, (env.embed s).isSome) ∧
  (∀ i, env.deleteSectionsFail i = false) ∧
  (∀ p, env.upsertFail p = false) ∧
  (∀ i s, env.insertSectionFail i s = false) ∧
  (∀ i, env.updateAccessFail i = false) ∧
  (∀ i, env.updateChecksumFail i = false) ∧
  env.listAllFail = false ∧
  (∀ p, env.deleteDocFail p = false)

/-- The stored record of `f` is fully committed and current: checksum
matches the content hash and the access flag matches the directory rules. -/
def goodDoc (env : Env) (pubs : List String) (db : DB) (f : TFile) : Prop :=
  ∃ d, db.findByPath f.path = some d ∧
    d.checksum = some (env.hash f.content) ∧
    d.public = isFileInDirectories env f.path pubs

/-- The id under which the reindex path inserts sections: the existing
document's id on conflict, the fresh id otherwise. -/
def reindexId (db : DB) (p : String) : Nat :=
  match db.findByPath p with
  | some d => d.id
  | none => db.nextId

/-- Spec-side Context Assembler (§4.6): admit ranked sections while the
running token total stays strictly below the 1500 budget; the section
whose count makes the total reach or exceed the budget is excluded and
accumulation stops. -/
def budgetTake (encode : String → Nat) : List String → Nat → List String
  | [], _ => []
  | c :: rest, acc =>
    if 1500 ≤ acc + encode c then []
    else c :: budgetTake encode rest (acc + encode c)

/-- Concatenation of admitted sections, each trimmed and followed by the
delimiter line. -/
def ctxConcat : List String → String
  | [] => ""
  | c :: rest => jsTrim c ++ "\n---\n" ++ ctxConcat rest

/-- Interleave chunks with separators: `c₁ s₁ c₂ s₂ … cₙ`. -/
def interleave : List (List Char) → List (List Char) → List Char
  | [], _ => []
  | c :: cs, [] => c ++ interleave cs []
  | c :: cs, s :: ss => c ++ s ++ interleave cs ss

/-- A blank-line separator: at least two characters, all JavaScript
whitespace, opening with `\r?\n` and closing with a `\n`. -/
def isSepChunk (s : List Char) : Bool :=
  s.all jsWhitespace && (nlLen s).isSome && (s.getLast? == some '\n')

/-! ### Concrete environments and stores used to instantiate theorems -/

/-- A sync environment in which every provider and store call succeeds. -/
def envOkW : Env where
  normalize := fun s => s
  hash := fun s => s ++ "#"
  parseYamlOk := fun s => some s
  embed := fun s => some (s.length, [1])
  fetchDocFail := fun _ => false
  deleteSectionsFail := fun _ => false
  upsertFail := fun _ => false
  insertSectionFail := fun _ _ => false
  updateAccessFail := fun _ => false
  updateChecksumFail := fun _ => false
  listAllFail := false
  deleteDocFail := fun _ => false

/-- Like `envOkW`, but deleting the stored document at path `"gone"` fails. -/
def envDelFailW : Env :=
  { envOkW with deleteDocFail := fun p => p == "gone" }

/-- Like `envOkW`, but embedding the text `"bad"` fails. -/
def envEmbedFailW : Env :=
  { envOkW with embed := fun s => if s == "bad" then none else some (s.length, [1]) }

/-- A store holding one fully committed document at the path `"gone"`. -/
def dbGoneW : DB :=
  ⟨[⟨0, "gone", some "c", "m", false⟩], [], 1⟩

/-- The empty store. -/
def dbEmptyW : DB := ⟨[], [], 0⟩

/-- A store holding a committed record of the file `⟨"a.md", "x"⟩` under
`envOkW`, whose public flag is stale (`true` while no directory rule
makes the file public). -/
def dbStaleAccessW : DB :=
  ⟨[⟨0, "a.md", some "x#", "m", true⟩], [⟨0, "x", 1, [1]⟩], 1⟩

/-- A search environment in which nothing is flagged and every call
succeeds with fixed data. -/
def senvOkW : SEnv where
  flagged := fun _ => false
  embedOk := fun _ => true
  embedVec := fun _ => [1]
  matchRpc := fun _ _ _ _ => .ok []
  fetchDoc := fun _ => .ok ⟨0, "p"⟩
  encode := fun _ => 1
  chatChoices := fun _ => [⟨some ⟨some "an answer"⟩⟩]

/-- Like `senvOkW`, but the trimmed query `"bad"` is flagged. -/
def senvFlagW : SEnv :=
  { senvOkW with flagged := fun s => s == "bad" }

/-- Like `senvOkW`, but the nearest-neighbor match query reports an error. -/
def senvMatchErrW : SEnv :=
  { senvOkW with matchRpc := fun _ _ _ _ => .error () }

/-- Like `senvOkW`, but the chat-completion provider returns an empty
`choices` list. -/
def senvNoChoiceW : SEnv :=
  { senvOkW with chatChoices := fun _ => [] }

/-- Like `senvOkW`, but the top choice carries a message without content. -/
def senvNoContentW : SEnv :=
  { senvOkW with chatChoices := fun _ => [⟨some ⟨none⟩⟩] }

/-! ## Lemma toolbox: `find?` and the store operations -/

theorem find?_congr {α : Type} (p q : α → Bool) :
    ∀ l : List α, (∀ x ∈ l, p x = q x) → l.find? p = l.find? q
  | [], _ => rfl
  | x :: l, h => by
    have hx : p x = q x := h x (List.mem_cons_self x l)
    by_cases hp : p x = true
    · rw [List.find?_cons_of_pos _ hp, List.find?_cons_of_pos _ (hx ▸ hp)]
    · rw [List.find?_cons_of_neg _ hp, List.find?_cons_of_neg _ (fun hq => hp (hx ▸ hq)),
        find?_congr p q l (fun y hy => h y (List.mem_cons_of_mem x hy))]

theorem DB.WF.id_inj {db : DB} (h : db.WF) {x y : Doc}
    (hx : x ∈ db.documents) (hy : y ∈ db.documents) (hid : x.id = y.id) : x = y := by
  by_contra hne
  have hsymm : Symmetric (fun a b : Doc => a.id ≠ b.id ∧ a.path ≠ b.path) :=
    fun a b hab => ⟨hab.1.symm, hab.2.symm⟩
  exact (h.1.forall hsymm hx hy hne).1 hid

theorem DB.WF.path_inj {db : DB} (h : db.WF) {x y : Doc}
    (hx : x ∈ db.documents) (hy : y ∈ db.documents) (hp : x.path = y.path) : x = y := by
  by_contra hne
  have hsymm : Symmetric (fun a b : Doc => a.id ≠ b.id ∧ a.path ≠ b.path) :=
    fun a b hab => ⟨hab.1.symm, hab.2.symm⟩
  exact (h.1.forall hsymm hx hy hne).2 hp

theorem DB.findByPath_updateChecksum (db : DB) (id : Nat) (c : Option String) (p : String) :
    (db.updateChecksum id c).findByPath p =
      (db.findByPath p).map (fun d => if d.id == id then { d with checksum := c } else d) := by
  unfold DB.findByPath DB.updateChecksum
  simp only [List.find?_map]
  rw [find?_congr ((fun d : Doc => d.path == p) ∘
      (fun d => if d.id == id then { d with checksum := c } else d))
      (fun d : Doc => d.path == p) db.documents ?_]
  intro x _
  by_cases h : x.id == id <;> simp [Function.comp, h]

theorem DB.findByPath_updateAccess (db : DB) (id : Nat) (b : Bool) (p : String) :
    (db.updateAccess id b).findByPath p =
      (db.findByPath p).map (fun d => if d.id == id then { d with public := b } else d) := by
  unfold DB.findByPath DB.updateAccess
  simp only [List.find?_map]
  rw [find?_congr ((fun d : Doc => d.path == p) ∘
      (fun d => if d.id == id then { d with public := b } else d))
      (fun d : Doc => d.path == p) db.documents ?_]
  intro x _
  by_cases h : x.id == id <;> simp [Function.comp, h]

theorem DB.sections_updateChecksum (db : DB) (id : Nat) (c : Option String) :
    (db.updateChecksum id c).sections = db.sections := rfl

theorem DB.sections_updateAccess (db : DB) (id : Nat) (b : Bool) :
    (db.updateAccess id b).sections = db.sections := rfl

theorem DB.sections_upsert (db : DB) (p meta : String) (pub : Bool) :
    (db.upsertByPath p meta pub).1.sections = db.sections := by
  unfold DB.upsertByPath
  cases db.documents.find? (fun d => d.path == p) <;> rfl

theorem DB.upsert_doc_path (db : DB) (p meta : String) (pub : Bool) :
    (db.upsertByPath p meta pub).2.path = p ∧
    (db.upsertByPath p meta pub).2.checksum = none ∧
    (db.upsertByPath p meta pub).2.public = pub := by
  unfold DB.upsertByPath
  cases h : db.documents.find? (fun d => d.path == p) with
  | none => exact ⟨rfl, rfl, rfl⟩
  | some d =>
    refine ⟨?_, rfl, rfl⟩
    have := List.find?_some h
    simpa using this

theorem DB.findByPath_upsert_self (db : DB) (hwf : db.WF) (p meta : String) (pub : Bool) :
    (db.upsertByPath p meta pub).1.findByPath p = some (db.upsertByPath p meta pub).2 := by
  unfold DB.upsertByPath DB.findByPath
  cases hfind : db.documents.find? (fun d => d.path == p) with
  | none =>
    simp only [List.find?_append, hfind, Option.none_or]
    simp
  | some d =>
    have hd : d ∈ db.documents := List.mem_of_find?_eq_some hfind
    simp only [List.find?_map]
    rw [find?_congr ((fun x : Doc => x.path == p) ∘
        (fun x => if x.id == d.id then { d with checksum := none, meta := meta, public := pub } else x))
        (fun x : Doc => x.path == p) db.documents ?_]
    · rw [hfind]
      simp
    · intro x hx
      by_cases h : x.id == d.id
      · have hxd : x = d := hwf.id_inj hx hd (by simpa using h)
        subst hxd
        simp [h]
      · simp [Function.comp, h]

theorem DB.findByPath_upsert_other (db : DB) (hwf : db.WF) (p meta : String) (pub : Bool)
    (q : String) (hq : q ≠ p) :
    (db.upsertByPath p meta pub).1.findByPath q = db.findByPath q := by
  unfold DB.upsertByPath DB.findByPath
  cases hfind : db.documents.find? (fun d => d.path == p) with
  | none =>
    simp only [List.find?_append]
    have : List.find? (fun d : Doc => d.path == q) [(⟨db.nextId, p, none, meta, pub⟩ : Doc)] = none := by
      simp [Ne.symm hq]
    simp [this]
  | some d =>
    have hd : d ∈ db.documents := List.mem_of_find?_eq_some hfind
    have hdp : d.path = p := by simpa using List.find?_some hfind
    simp only [List.find?_map]
    rw [find?_congr ((fun x : Doc => x.path == q) ∘
        (fun x => if x.id == d.id then { d with checksum := none, meta := meta, public := pub } else x))
        (fun x : Doc => x.path == q) db.documents ?_]
    · cases hfq : db.documents.find? (fun x : Doc => x.path == q) with
      | none => rfl
      | some x =>
        have hxq : x.path = q := by simpa using List.find?_some hfq
        have hx : x ∈ db.documents := List.mem_of_find?_eq_some hfq
        have hxd : x.id ≠ d.id := by
          intro hid
          exact hq (by rw [← hxq, hwf.id_inj hx hd hid, hdp])
        simp [hxd]
    · intro x hx
      by_cases h : x.id == d.id
      · have hxd : x = d := hwf.id_inj hx hd (by simpa using h)
        subst hxd
        simp [h, hdp]
      · simp [Function.comp, h]

theorem DB.findByPath_deleteByPath_other (db : DB) (p q : String) (hq : q ≠ p) :
    (db.deleteByPath p).findByPath q = db.findByPath q := by
  unfold DB.deleteByPath DB.findByPath
  rw [List.find?_filter]
  apply find?_congr
  intro x _
  by_cases h : x.path = q
  · simp [h, hq]
  · simp [h]

theorem DB.findByPath_insertSection (db : DB) (s : DocSection) (p : String) :
    (db.insertSection s).findByPath p = db.findByPath p := rfl

/-! ## Lemma toolbox: well-formedness preservation -/

theorem DB.WF_map_docs (db : DB) (hwf : db.WF) (f : Doc → Doc)
    (hf : ∀ x ∈ db.documents, (f x).id = x.id ∧ (f x).path = x.path) :
    DB.WF { db with documents := db.documents.map f } := by
  refine ⟨?_, ?_, hwf.2.2⟩
  · rw [List.pairwise_map]
    refine hwf.1.imp_of_mem ?_
    intro a b ha hb hab
    exact ⟨(hf a ha).1 ▸ (hf b hb).1 ▸ hab.1, (hf a ha).2 ▸ (hf b hb).2 ▸ hab.2⟩
  · intro d hd
    rcases List.mem_map.mp hd with ⟨x, hx, rfl⟩
    exact (hf x hx).1 ▸ hwf.2.1 x hx

theorem DB.WF_updateChecksum (db : DB) (hwf : db.WF) (id : Nat) (c : Option String) :
    DB.WF (db.updateChecksum id c) := by
  apply DB.WF_map_docs db hwf
  intro x _
  by_cases h : x.id == id <;> simp [h]

theorem DB.WF_updateAccess (db : DB) (hwf : db.WF) (id : Nat) (b : Bool) :
    DB.WF (db.updateAccess id b) := by
  apply DB.WF_map_docs db hwf
  intro x _
  by_cases h : x.id == id <;> simp [h]

theorem DB.WF_deleteSectionsFor (db : DB) (hwf : db.WF) (id : Nat) :
    DB.WF (db.deleteSectionsFor id) := by
  refine ⟨hwf.1, hwf.2.1, ?_⟩
  intro s hs
  exact hwf.2.2 s (List.mem_of_mem_filter hs)

theorem DB.WF_deleteByPath (db : DB) (hwf : db.WF) (p : String) :
    DB.WF (db.deleteByPath p) := by
  refine ⟨hwf.1.filter _, ?_, hwf.2.2⟩
  intro d hd
  exact hwf.2.1 d (List.mem_of_mem_filter hd)

theorem DB.WF_insertSection (db : DB) (hwf : db.WF) (s : DocSection)
    (hs : s.document_id < db.nextId) : DB.WF (db.insertSection s) := by
  refine ⟨hwf.1, hwf.2.1, ?_⟩
  intro x hx
  rcases List.mem_append.mp hx with h | h
  · exact hwf.2.2 x h
  · rw [List.mem_singleton.mp h]
    exact hs

theorem DB.WF_upsert (db : DB) (hwf : db.WF) (p meta : String) (pub : Bool) :
    DB.WF (db.upsertByPath p meta pub).1 ∧
    (db.upsertByPath p meta pub).2.id < (db.upsertByPath p meta pub).1.nextId ∧
    db.nextId ≤ (db.upsertByPath p meta pub).1.nextId := by
  unfold DB.upsertByPath
  cases hfind : db.documents.find? (fun d => d.path == p) with
  | some d =>
    have hd : d ∈ db.documents := List.mem_of_find?_eq_some hfind
    have hdp : d.path = p := by simpa using List.find?_some hfind
    refine ⟨?_, hwf.2.1 d hd, le_refl _⟩
    apply DB.WF_map_docs db hwf
    intro x hx
    by_cases h : x.id == d.id
    · have hxd : x = d := hwf.id_inj hx hd (by simpa using h)
      subst hxd
      simp [h]
    · simp [h]
  | none =>
    have hnot : ∀ x ∈ db.documents, ¬(x.path == p) = true := List.find?_eq_none.mp hfind
    refine ⟨⟨?_, ?_, ?_⟩, by simp, Nat.le_succ _⟩
    · rw [List.pairwise_append]
      refine ⟨hwf.1, List.pairwise_singleton _ _, ?_⟩
      intro a ha b hb
      rw [List.mem_singleton.mp hb]
      refine ⟨Nat.ne_of_lt (hwf.2.1 a ha), ?_⟩
      intro hp
      exact hnot a ha (by simp [hp])
    · intro d hd
      rcases List.mem_append.mp hd with h | h
      · exact Nat.lt_succ_of_lt (hwf.2.1 d h)
      · rw [List.mem_singleton.mp h]
        exact Nat.lt_succ_self _
    · intro s hs
      exact Nat.lt_succ_of_lt (hwf.2.2 s hs)

/-! ## The section-insertion loop -/

theorem DB.upsert_id (db : DB) (p meta : String) (pub : Bool) :
    (db.upsertByPath p meta pub).2.id = reindexId db p := by
  unfold DB.upsertByPath reindexId DB.findByPath
  cases db.documents.find? (fun d => d.path == p) <;> rfl

theorem DB.findByPath_deleteSectionsFor (db : DB) (id : Nat) (p : String) :
    (db.deleteSectionsFor id).findByPath p = db.findByPath p := rfl

/-- One combined description of `insertSectionsLoop`: it only appends
section rows for `docId`; on success the appended contents are the whole
input list, on a first failure at index `k` exactly the first `k`. -/
theorem insertSectionsLoop_spec (env : Env) (docId : Nat) :
    ∀ (ss : List String) (db : DB),
      ∃ rows : List DocSection,
        (insertSectionsLoop env docId db ss).1 = { db with sections := db.sections ++ rows } ∧
        (∀ s ∈ rows, s.document_id = docId) ∧
        (firstFailure env docId ss = none →
          (insertSectionsLoop env docId db ss).2 = true ∧
          rows.map (fun s => s.content) = ss) ∧
        (∀ k, firstFailure env docId ss = some k →
          (insertSectionsLoop env docId db ss).2 = false ∧
          rows.map (fun s => s.content) = ss.take k) := by
  intro ss
  induction ss with
  | nil =>
    intro db
    refine ⟨[], by simp [insertSectionsLoop], by simp, ?_, ?_⟩
    · intro _
      exact ⟨rfl, rfl⟩
    · intro k hk
      simp [firstFailure] at hk
  | cons s rest ih =>
    intro db
    cases hembed : env.embed (nlToSpace s) with
    | none =>
      refine ⟨[], by simp [insertSectionsLoop, hembed], by simp, ?_, ?_⟩
      · intro hnone
        simp [firstFailure, hembed] at hnone
      · intro k hk
        simp only [firstFailure, hembed] at hk
        cases hk
        exact ⟨by simp [insertSectionsLoop, hembed], rfl⟩
    | some tv =>
      cases hins : env.insertSectionFail docId s with
      | true =>
        refine ⟨[], by simp [insertSectionsLoop, hembed, hins], by simp, ?_, ?_⟩
        · intro hnone
          simp [firstFailure, hembed, hins] at hnone
        · intro k hk
          simp only [firstFailure, hembed, hins] at hk
          cases hk
          exact ⟨by simp [insertSectionsLoop, hembed, hins], rfl⟩
      | false =>
        obtain ⟨rows, hdb, hdoc, hnone, hsome⟩ :=
          ih (db.insertSection ⟨docId, s, tv.1, tv.2⟩)
        have hstep : insertSectionsLoop env docId db (s :: rest) =
            insertSectionsLoop env docId (db.insertSection ⟨docId, s, tv.1, tv.2⟩) rest := by
          simp [insertSectionsLoop, hembed, hins]
        have hsec : ({ db.insertSection ⟨docId, s, tv.1, tv.2⟩ with
            sections := (db.insertSection ⟨docId, s, tv.1, tv.2⟩).sections ++ rows } : DB) =
            { db with sections := db.sections ++ (⟨docId, s, tv.1, tv.2⟩ : DocSection) :: rows } := by
          simp [DB.insertSection]
        have hffeq : firstFailure env docId (s :: rest) =
            (firstFailure env docId rest).map (· + 1) := by
          simp [firstFailure, hembed, hins]
        refine ⟨⟨docId, s, tv.1, tv.2⟩ :: rows, by rw [hstep, hdb, hsec], ?_, ?_, ?_⟩
        · intro x hx
          rcases List.mem_cons.mp hx with h | h
          · rw [h]
          · exact hdoc x h
        · intro hn
          rw [hffeq, Option.map_eq_none'] at hn
          obtain ⟨h2, hmap⟩ := hnone hn
          exact ⟨by rw [hstep]; exact h2, by simp [hmap]⟩
        · intro k hk
          rw [hffeq, Option.map_eq_some'] at hk
          obtain ⟨k', hk', rfl⟩ := hk
          obtain ⟨h2, hmap⟩ := hsome k' hk'
          exact ⟨by rw [hstep]; exact h2, by simp [hmap]⟩

/-! ## The reindex path -/

theorem DB.WF_append_sections (db : DB) (hwf : db.WF) (rows : List DocSection)
    (h : ∀ r ∈ rows, r.document_id < db.nextId) :
    DB.WF { db with sections := db.sections ++ rows } := by
  refine ⟨hwf.1, hwf.2.1, ?_⟩
  intro s hs
  rcases List.mem_append.mp hs with h' | h'
  · exact hwf.2.2 s h'
  · exact h s h'

theorem reindexId_not_found_other (db : DB) (hwf : db.WF) (p q : String) (hq : q ≠ p)
    (x : Doc) (hx : db.findByPath q = some x) : x.id ≠ reindexId db p := by
  unfold reindexId
  have hxq : x.path = q := by simpa using List.find?_some hx
  have hxm : x ∈ db.documents := List.mem_of_find?_eq_some hx
  cases hfind : db.findByPath p with
  | none => exact Nat.ne_of_lt (hwf.2.1 x hxm)
  | some d =>
    intro h
    have hdm : d ∈ db.documents := List.mem_of_find?_eq_some hfind
    have hdp : d.path = p := by simpa using List.find?_some hfind
    exact hq (by rw [← hxq, hwf.id_inj hxm hdm h, hdp])

/-- Failing reindex: outcome `errored`, the document row is left with the
null checksum, and the committed section rows are exactly the prefix
before the first failing section. -/
theorem reindex_fail (env : Env) (db : DB) (file : TFile) (checksum : String)
    (isPublic : Bool) (hwf : db.WF) (hupsert : env.upsertFail file.path = false) (k : Nat)
    (hfail : firstFailure env (reindexId db file.path)
      (splitIntoParagraphs (parseMarkdown env file.content).1) = some k) :
    ∃ d' rows,
      (reindex env db file checksum isPublic).2 = .errored ∧
      (reindex env db file checksum isPublic).1.WF ∧
      (reindex env db file checksum isPublic).1.findByPath file.path = some d' ∧
      d'.checksum = none ∧ d'.public = isPublic ∧ d'.id = reindexId db file.path ∧
      (reindex env db file checksum isPublic).1.sections = db.sections ++ rows ∧
      (∀ r ∈ rows, r.document_id = d'.id) ∧
      rows.map (fun s => s.content) =
        (splitIntoParagraphs (parseMarkdown env file.content).1).take k ∧
      (∀ q, q ≠ file.path →
        (reindex env db file checksum isPublic).1.findByPath q = db.findByPath q) ∧
      db.nextId ≤ (reindex env db file checksum isPublic).1.nextId := by
  have hid := DB.upsert_id db file.path (parseMarkdown env file.content).2 isPublic
  obtain ⟨hwfUp, hidlt, hnle⟩ :=
    DB.WF_upsert db hwf file.path (parseMarkdown env file.content).2 isPublic
  set up := db.upsertByPath file.path (parseMarkdown env file.content).2 isPublic with hup
  obtain ⟨rows, hdb, hdoc, _, hsome⟩ :=
    insertSectionsLoop_spec env up.2.id
      (splitIntoParagraphs (parseMarkdown env file.content).1) up.1
  obtain ⟨hff, hmap⟩ := hsome k (by rw [hid]; exact hfail)
  have hre : reindex env db file checksum isPublic =
      ((insertSectionsLoop env up.2.id up.1
        (splitIntoParagraphs (parseMarkdown env file.content).1)).1, .errored) := by
    unfold reindex
    simp [hupsert, hff, ← hup]
  refine ⟨up.2, rows, by rw [hre], ?_, ?_, ?_, ?_, ?_, ?_, ?_, ?_, ?_, ?_⟩
  · rw [hre, hdb]
    exact DB.WF_append_sections up.1 hwfUp rows
      (fun r hr => (hdoc r hr) ▸ hidlt)
  · rw [hre]
    show (insertSectionsLoop env up.2.id up.1 _).1.findByPath file.path = some up.2
    rw [hdb]
    show ({ up.1 with sections := _ } : DB).findByPath file.path = some up.2
    unfold DB.findByPath
    exact DB.findByPath_upsert_self db hwf file.path (parseMarkdown env file.content).2 isPublic
  · exact (DB.upsert_doc_path db file.path (parseMarkdown env file.content).2 isPublic).2.1
  · exact (DB.upsert_doc_path db file.path (parseMarkdown env file.content).2 isPublic).2.2
  · exact hid
  · rw [hre, hdb]
    show up.1.sections ++ rows = db.sections ++ rows
    rw [DB.sections_upsert]
  · exact hdoc
  · exact hmap
  · intro q hq
    rw [hre, hdb]
    show ({ up.1 with sections := _ } : DB).findByPath q = db.findByPath q
    unfold DB.findByPath
    exact DB.findByPath_upsert_other db hwf file.path (parseMarkdown env file.content).2
      isPublic q hq
  · rw [hre, hdb]
    exact hnle

/-- Under an all-successful environment the section loop never fails. -/
theorem firstFailure_allOk (env : Env) (docId : Nat)
    (hembed : ∀ s, (env.embed s).isSome)
    (hins : ∀ i s, env.insertSectionFail i s = false) :
    ∀ ss : List String, firstFailure env docId ss = none := by
  intro ss
  induction ss with
  | nil => rfl
  | cons s rest ih =>
    have := hembed (nlToSpace s)
    cases hE : env.embed (nlToSpace s) with
    | none => rw [hE] at this; simp at this
    | some tv => simp [firstFailure, hE, hins, ih]

/-- Successful reindex: outcome `reindexed`, the document row carries the
computed checksum and access flag, other paths are untouched. -/
theorem reindex_ok (env : Env) (db : DB) (file : TFile) (checksum : String)
    (isPublic : Bool) (hwf : db.WF) (hupsert : env.upsertFail file.path = false)
    (hff : firstFailure env (reindexId db file.path)
      (splitIntoParagraphs (parseMarkdown env file.content).1) = none)
    (hchk : env.updateChecksumFail (reindexId db file.path) = false) :
    ∃ d',
      (reindex env db file checksum isPublic).2 = .reindexed ∧
      (reindex env db file checksum isPublic).1.WF ∧
      (reindex env db file checksum isPublic).1.findByPath file.path = some d' ∧
      d'.checksum = some checksum ∧ d'.public = isPublic ∧
      (∀ q, q ≠ file.path →
        (reindex env db file checksum isPublic).1.findByPath q = db.findByPath q) ∧
      db.nextId ≤ (reindex env db file checksum isPublic).1.nextId := by
  have hid := DB.upsert_id db file.path (parseMarkdown env file.content).2 isPublic
  obtain ⟨hwfUp, hidlt, hnle⟩ :=
    DB.WF_upsert db hwf file.path (parseMarkdown env file.content).2 isPublic
  set up := db.upsertByPath file.path (parseMarkdown env file.content).2 isPublic with hup
  obtain ⟨rows, hdb, hdoc, hnone, _⟩ :=
    insertSectionsLoop_spec env up.2.id
      (splitIntoParagraphs (parseMarkdown env file.content).1) up.1
  obtain ⟨hok, _⟩ := hnone (by rw [hid]; exact hff)
  set res := insertSectionsLoop env up.2.id up.1
    (splitIntoParagraphs (parseMarkdown env file.content).1) with hres
  have hwfRes : res.1.WF := by
    rw [hdb]
    exact DB.WF_append_sections up.1 hwfUp rows (fun r hr => (hdoc r hr) ▸ hidlt)
  have e : reindex env db file checksum isPublic =
      (if env.upsertFail file.path then (db, Outcome.errored)
       else if !res.2 then (res.1, Outcome.errored)
       else if env.updateChecksumFail up.2.id then (res.1, Outcome.errored)
       else (res.1.updateChecksum up.2.id (some checksum), Outcome.reindexed)) := rfl
  have hchk' : env.updateChecksumFail up.2.id = false := by rw [hid]; exact hchk
  have hre : reindex env db file checksum isPublic =
      (res.1.updateChecksum up.2.id (some checksum), .reindexed) := by
    rw [e]
    simp [hupsert, hok, hchk']
  have hfself : res.1.findByPath file.path = some up.2 := by
    rw [hdb]
    show ({ up.1 with sections := _ } : DB).findByPath file.path = some up.2
    unfold DB.findByPath
    exact DB.findByPath_upsert_self db hwf file.path (parseMarkdown env file.content).2 isPublic
  refine ⟨{ up.2 with checksum := some checksum }, by rw [hre], ?_, ?_, rfl, ?_, ?_, ?_⟩
  · rw [hre]
    exact DB.WF_updateChecksum res.1 hwfRes up.2.id (some checksum)
  · rw [hre]
    show (res.1.updateChecksum up.2.id (some checksum)).findByPath file.path = _
    rw [DB.findByPath_updateChecksum, hfself]
    simp
  · show up.2.public = isPublic
    exact (DB.upsert_doc_path db file.path (parseMarkdown env file.content).2 isPublic).2.2
  · intro q hq
    rw [hre]
    show (res.1.updateChecksum up.2.id (some checksum)).findByPath q = _
    rw [DB.findByPath_updateChecksum]
    have hframe : res.1.findByPath q = db.findByPath q := by
      rw [hdb]
      show ({ up.1 with sections := _ } : DB).findByPath q = db.findByPath q
      unfold DB.findByPath
      exact DB.findByPath_upsert_other db hwf file.path (parseMarkdown env file.content).2
        isPublic q hq
    rw [hframe]
    cases hfq : db.findByPath q with
    | none => rfl
    | some x =>
      have hxid : x.id ≠ up.2.id := by
        rw [hid]
        exact reindexId_not_found_other db hwf file.path q hq x hfq
      simp [hxid]
  · rw [hre]
    show res.1.nextId ≥ db.nextId
    rw [hdb]
    exact hnle

/-- Whatever happens inside `reindex`, well-formedness is preserved,
other paths' rows are untouched, and `nextId` does not decrease. -/
theorem reindex_any (env : Env) (db : DB) (file : TFile) (checksum : String)
    (isPublic : Bool) (hwf : db.WF) :
    (reindex env db file checksum isPublic).1.WF ∧
    (∀ q, q ≠ file.path →
      (reindex env db file checksum isPublic).1.findByPath q = db.findByPath q) ∧
    db.nextId ≤ (reindex env db file checksum isPublic).1.nextId := by
  have hid := DB.upsert_id db file.path (parseMarkdown env file.content).2 isPublic
  obtain ⟨hwfUp, hidlt, hnle⟩ :=
    DB.WF_upsert db hwf file.path (parseMarkdown env file.content).2 isPublic
  set up := db.upsertByPath file.path (parseMarkdown env file.content).2 isPublic with hup
  obtain ⟨rows, hdb, hdoc, _, _⟩ :=
    insertSectionsLoop_spec env up.2.id
      (splitIntoParagraphs (parseMarkdown env file.content).1) up.1
  set res := insertSectionsLoop env up.2.id up.1
    (splitIntoParagraphs (parseMarkdown env file.content).1) with hres
  have hwfRes : res.1.WF := by
    rw [hdb]
    exact DB.WF_append_sections up.1 hwfUp rows (fun r hr => (hdoc r hr) ▸ hidlt)
  have hframeRes : ∀ q, q ≠ file.path → res.1.findByPath q = db.findByPath q := by
    intro q hq
    rw [hdb]
    show ({ up.1 with sections := _ } : DB).findByPath q = db.findByPath q
    unfold DB.findByPath
    exact DB.findByPath_upsert_other db hwf file.path (parseMarkdown env file.content).2
      isPublic q hq
  have hnRes : db.nextId ≤ res.1.nextId := by rw [hdb]; exact hnle
  have e : reindex env db file checksum isPublic =
      (if env.upsertFail file.path then (db, Outcome.errored)
       else if !res.2 then (res.1, Outcome.errored)
       else if env.updateChecksumFail up.2.id then (res.1, Outcome.errored)
       else (res.1.updateChecksum up.2.id (some checksum), Outcome.reindexed)) := rfl
  rw [e]
  split
  · exact ⟨hwf, fun q _ => rfl, le_refl _⟩
  · split
    · exact ⟨hwfRes, hframeRes, hnRes⟩
    · split
      · exact ⟨hwfRes, hframeRes, hnRes⟩
      · refine ⟨DB.WF_updateChecksum res.1 hwfRes up.2.id _, ?_, hnRes⟩
        intro q hq
        show (res.1.updateChecksum up.2.id _).findByPath q = _
        rw [DB.findByPath_updateChecksum, hframeRes q hq]
        cases hfq : db.findByPath q with
        | none => rfl
        | some x =>
          have hxid : x.id ≠ up.2.id := by
            rw [hid]
            exact reindexId_not_found_other db hwf file.path q hq x hfq
          simp [hxid]

/-! ## The per-document body -/

theorem processFile_unchanged (env : Env) (pubs : List String) (db : DB) (file : TFile)
    (d : Doc) (hfetch : env.fetchDocFail file.path = false)
    (hfind : db.findByPath file.path = some d)
    (hsum : d.checksum = some (env.hash file.content))
    (hpub : d.public = isFileInDirectories env file.path pubs) :
    processFile env pubs db file = (db, .unchanged) := by
  unfold processFile
  rw [hfind]
  simp [hfetch, hsum, hpub]

theorem processFile_access (env : Env) (pubs : List String) (db : DB) (file : TFile)
    (d : Doc) (hfetch : env.fetchDocFail file.path = false)
    (hfind : db.findByPath file.path = some d)
    (hsum : d.checksum = some (env.hash file.content))
    (hpub : d.public ≠ isFileInDirectories env file.path pubs)
    (hupd : env.updateAccessFail d.id = false) :
    processFile env pubs db file =
      (db.updateAccess d.id (isFileInDirectories env file.path pubs), .accessUpdated) := by
  unfold processFile
  rw [hfind]
  simp [hfetch, hsum, hpub, hupd]

theorem processFile_new (env : Env) (pubs : List String) (db : DB) (file : TFile)
    (hfetch : env.fetchDocFail file.path = false)
    (hfind : db.findByPath file.path = none) :
    processFile env pubs db file =
      reindex env db file (env.hash file.content)
        (isFileInDirectories env file.path pubs) := by
  unfold processFile
  rw [hfind]
  simp [hfetch]

theorem processFile_stale (env : Env) (pubs : List String) (db : DB) (file : TFile)
    (d : Doc) (hfetch : env.fetchDocFail file.path = false)
    (hfind : db.findByPath file.path = some d)
    (hsum : d.checksum ≠ some (env.hash file.content))
    (hdel : env.deleteSectionsFail d.id = false) :
    processFile env pubs db file =
      reindex env (db.deleteSectionsFor d.id) file (env.hash file.content)
        (isFileInDirectories env file.path pubs) := by
  unfold processFile
  rw [hfind]
  simp [hfetch, hsum, hdel]

theorem processFile_fetchFail (env : Env) (pubs : List String) (db : DB) (file : TFile)
    (hfetch : env.fetchDocFail file.path = true) :
    processFile env pubs db file = (db, .errored) := by
  unfold processFile
  simp [hfetch]

theorem processFile_accessFail (env : Env) (pubs : List String) (db : DB) (file : TFile)
    (d : Doc) (hfetch : env.fetchDocFail file.path = false)
    (hfind : db.findByPath file.path = some d)
    (hsum : d.checksum = some (env.hash file.content))
    (hpub : d.public ≠ isFileInDirectories env file.path pubs)
    (hupd : env.updateAccessFail d.id = true) :
    processFile env pubs db file = (db, .errored) := by
  unfold processFile
  rw [hfind]
  simp [hfetch, hsum, hpub, hupd]

theorem processFile_delFail (env : Env) (pubs : List String) (db : DB) (file : TFile)
    (d : Doc) (hfetch : env.fetchDocFail file.path = false)
    (hfind : db.findByPath file.path = some d)
    (hsum : d.checksum ≠ some (env.hash file.content))
    (hdel : env.deleteSectionsFail d.id = true) :
    processFile env pubs db file = (db, .errored) := by
  unfold processFile
  rw [hfind]
  simp [hfetch, hsum, hdel]

/-- Whatever happens to one document, well-formedness is preserved, the
rows of every other path are untouched, and `nextId` does not decrease. -/
theorem processFile_any (env : Env) (pubs : List String) (db : DB) (file : TFile)
    (hwf : db.WF) :
    (processFile env pubs db file).1.WF ∧
    (∀ q, q ≠ file.path →
      (processFile env pubs db file).1.findByPath q = db.findByPath q) ∧
    db.nextId ≤ (processFile env pubs db file).1.nextId := by
  by_cases hF : env.fetchDocFail file.path = true
  · rw [processFile_fetchFail env pubs db file hF]
    exact ⟨hwf, fun q _ => rfl, le_refl _⟩
  · have hF' : env.fetchDocFail file.path = false := by simpa using hF
    cases hfind : db.findByPath file.path with
    | none =>
      rw [processFile_new env pubs db file hF' hfind]
      exact reindex_any env db file (env.hash file.content)
        (isFileInDirectories env file.path pubs) hwf
    | some d =>
      have hd : d ∈ db.documents := List.mem_of_find?_eq_some hfind
      have hdp : d.path = file.path := by simpa using List.find?_some hfind
      by_cases hsum : d.checksum = some (env.hash file.content)
      · by_cases hpub : d.public = isFileInDirectories env file.path pubs
        · rw [processFile_unchanged env pubs db file d hF' hfind hsum hpub]
          exact ⟨hwf, fun q _ => rfl, le_refl _⟩
        · by_cases hUA : env.updateAccessFail d.id = true
          · rw [processFile_accessFail env pubs db file d hF' hfind hsum hpub hUA]
            exact ⟨hwf, fun q _ => rfl, le_refl _⟩
          · rw [processFile_access env pubs db file d hF' hfind hsum hpub
              (by simpa using hUA)]
            refine ⟨DB.WF_updateAccess db hwf d.id _, ?_, le_refl _⟩
            intro q hq
            show (db.updateAccess d.id _).findByPath q = _
            rw [DB.findByPath_updateAccess]
            cases hfq : db.findByPath q with
            | none => rfl
            | some x =>
              have hx : x ∈ db.documents := List.mem_of_find?_eq_some hfq
              have hxq : x.path = q := by simpa using List.find?_some hfq
              have hxid : x.id ≠ d.id := by
                intro h
                exact hq (by rw [← hxq, hwf.id_inj hx hd h, hdp])
              simp [hxid]
      · by_cases hDS : env.deleteSectionsFail d.id = true
        · rw [processFile_delFail env pubs db file d hF' hfind hsum hDS]
          exact ⟨hwf, fun q _ => rfl, le_refl _⟩
        · rw [processFile_stale env pubs db file d hF' hfind hsum (by simpa using hDS)]
          exact reindex_any env (db.deleteSectionsFor d.id) file (env.hash file.content)
            (isFileInDirectories env file.path pubs) (DB.WF_deleteSectionsFor db hwf d.id)

/-- Under an all-successful environment every document ends in a
non-error outcome and its stored row is fully committed and current. -/
theorem processFile_allOk (env : Env) (pubs : List String) (db : DB) (file : TFile)
    (hok : env.AllOk) (hwf : db.WF) :
    (processFile env pubs db file).1.WF ∧
    goodDoc env pubs (processFile env pubs db file).1 file ∧
    (processFile env pubs db file).2 ≠ .errored := by
  have hfetch := hok.1 file.path
  cases hfind : db.findByPath file.path with
  | none =>
    rw [processFile_new env pubs db file hfetch hfind]
    obtain ⟨d', ho, hwf', hfound, hchk, hpubEq, _, _⟩ :=
      reindex_ok env db file (env.hash file.content)
        (isFileInDirectories env file.path pubs) hwf (hok.2.2.2.1 file.path)
        (firstFailure_allOk env _ hok.2.1 hok.2.2.2.2.1 _)
        (hok.2.2.2.2.2.2.1 _)
    exact ⟨hwf', ⟨d', hfound, hchk, hpubEq⟩, by rw [ho]; intro h; cases h⟩
  | some d =>
    by_cases hsum : d.checksum = some (env.hash file.content)
    · by_cases hpub : d.public = isFileInDirectories env file.path pubs
      · rw [processFile_unchanged env pubs db file d hfetch hfind hsum hpub]
        exact ⟨hwf, ⟨d, hfind, hsum, hpub⟩, by intro h; cases h⟩
      · rw [processFile_access env pubs db file d hfetch hfind hsum hpub
          (hok.2.2.2.2.2.1 d.id)]
        refine ⟨DB.WF_updateAccess db hwf d.id _, ?_, by intro h; cases h⟩
        refine ⟨{ d with public := isFileInDirectories env file.path pubs }, ?_, hsum, rfl⟩
        show (db.updateAccess d.id _).findByPath file.path = _
        rw [DB.findByPath_updateAccess, hfind]
        simp
    · rw [processFile_stale env pubs db file d hfetch hfind hsum (hok.2.2.1 d.id)]
      obtain ⟨d', ho, hwf', hfound, hchk, hpubEq, _, _⟩ :=
        reindex_ok env (db.deleteSectionsFor d.id) file (env.hash file.content)
          (isFileInDirectories env file.path pubs) (DB.WF_deleteSectionsFor db hwf d.id)
          (hok.2.2.2.1 file.path)
          (firstFailure_allOk env _ hok.2.1 hok.2.2.2.2.1 _)
          (hok.2.2.2.2.2.2.1 _)
      exact ⟨hwf', ⟨d', hfound, hchk, hpubEq⟩, by rw [ho]; intro h; cases h⟩

/-! ## The document loop -/

/-- Every document contributes exactly one terminal outcome: the success
and error tallies sum to the number of scanned files, whatever failures
occur — no per-document failure aborts the loop. -/
theorem processAll_success_error (env : Env) (pubs : List String) :
    ∀ (files : List TFile) (db : DB) (r : EmbeddingResult),
      (processAll env pubs db r files).2.successCount +
        (processAll env pubs db r files).2.errorCount =
        r.successCount + r.errorCount + files.length ∧
      (processAll env pubs db r files).2.deleteCount = r.deleteCount
  | [], db, r => by simp [processAll]
  | file :: rest, db, r => by
    have ih := processAll_success_error env pubs rest
      (processFile env pubs db file).1 ((processFile env pubs db file).2.apply r)
    have e : processAll env pubs db r (file :: rest) =
        processAll env pubs (processFile env pubs db file).1
          ((processFile env pubs db file).2.apply r) rest := rfl
    rw [e]
    refine ⟨?_, ?_⟩
    · rw [ih.1]
      cases (processFile env pubs db file).2 <;> simp [Outcome.apply] <;> omega
    · rw [ih.2]
      cases (processFile env pubs db file).2 <;> simp [Outcome.apply]

theorem processAll_WF_frame (env : Env) (pubs : List String) :
    ∀ (files : List TFile) (db : DB) (r : EmbeddingResult), db.WF →
      (processAll env pubs db r files).1.WF ∧
      (∀ q, (∀ f ∈ files, f.path ≠ q) →
        (processAll env pubs db r files).1.findByPath q = db.findByPath q) ∧
      db.nextId ≤ (processAll env pubs db r files).1.nextId
  | [], db, r, hwf => ⟨hwf, fun _ _ => rfl, le_refl _⟩
  | file :: rest, db, r, hwf => by
    obtain ⟨hwf', hframe', hn'⟩ := processFile_any env pubs db file hwf
    have e : processAll env pubs db r (file :: rest) =
        processAll env pubs (processFile env pubs db file).1
          ((processFile env pubs db file).2.apply r) rest := rfl
    obtain ⟨hwf'', hframe'', hn''⟩ := processAll_WF_frame env pubs rest
      (processFile env pubs db file).1 ((processFile env pubs db file).2.apply r) hwf'
    rw [e]
    refine ⟨hwf'', ?_, le_trans hn' hn''⟩
    intro q hq
    rw [hframe'' q (fun f hf => hq f (List.mem_cons_of_mem file hf)),
      hframe' q (Ne.symm (hq file (List.mem_cons_self file rest)))]

/-- After an all-successful document loop over files with distinct paths,
every scanned file has a fully committed, current record. -/
theorem processAll_allOk_state (env : Env) (pubs : List String) (hok : env.AllOk) :
    ∀ (files : List TFile) (db : DB) (r : EmbeddingResult),
      db.WF → (files.map TFile.path).Nodup →
      (processAll env pubs db r files).1.WF ∧
      (∀ f ∈ files, goodDoc env pubs (processAll env pubs db r files).1 f)
  | [], db, r, hwf, _ => ⟨hwf, by simp⟩
  | file :: rest, db, r, hwf, hnd => by
    obtain ⟨hwf', hgood', hne⟩ := processFile_allOk env pubs db file hok hwf
    have e : processAll env pubs db r (file :: rest) =
        processAll env pubs (processFile env pubs db file).1
          ((processFile env pubs db file).2.apply r) rest := rfl
    have hnd' : (rest.map TFile.path).Nodup := (List.nodup_cons.mp hnd).2
    obtain ⟨hwf'', hgood''⟩ := processAll_allOk_state env pubs hok rest
      (processFile env pubs db file).1 ((processFile env pubs db file).2.apply r) hwf' hnd'
    rw [e]
    refine ⟨hwf'', ?_⟩
    intro f hf
    rcases List.mem_cons.mp hf with h | h
    · subst h
      obtain ⟨d, hd, hsum, hpub⟩ := hgood'
      obtain ⟨_, hframe, _⟩ := processAll_WF_frame env pubs rest
        (processFile env pubs db f).1 ((processFile env pubs db f).2.apply r) hwf'
      refine ⟨d, ?_, hsum, hpub⟩
      rw [hframe f.path ?_]
      · exact hd
      · intro g hg hgp
        have : f.path ∉ rest.map TFile.path := (List.nodup_cons.mp hnd).1
        exact this (hgp ▸ List.mem_map_of_mem TFile.path hg)
    · exact hgood'' f h

/-- A loop over documents whose records are all current does nothing but
count one success per file. -/
theorem processAll_good_counts (env : Env) (pubs : List String)
    (hfetch : ∀ p, env.fetchDocFail p = false) :
    ∀ (files : List TFile) (db : DB) (r : EmbeddingResult),
      (∀ f ∈ files, goodDoc env pubs db f) →
      (processAll env pubs db r files).1 = db ∧
      (processAll env pubs db r files).2.successCount = r.successCount + files.length ∧
      (processAll env pubs db r files).2.updatedCount = r.updatedCount ∧
      (processAll env pubs db r files).2.errorCount = r.errorCount ∧
      (processAll env pubs db r files).2.deleteCount = r.deleteCount
  | [], db, r, _ => ⟨rfl, rfl, rfl, rfl, rfl⟩
  | file :: rest, db, r, hgood => by
    obtain ⟨d, hd, hsum, hpub⟩ := hgood file (List.mem_cons_self file rest)
    have hstep := processFile_unchanged env pubs db file d (hfetch file.path) hd hsum hpub
    have e : processAll env pubs db r (file :: rest) =
        processAll env pubs (processFile env pubs db file).1
          ((processFile env pubs db file).2.apply r) rest := rfl
    rw [e, hstep]
    obtain ⟨h1, h2, h3, h4, h5⟩ := processAll_good_counts env pubs hfetch rest db
      (Outcome.apply r .unchanged)
      (fun f hf => hgood f (List.mem_cons_of_mem file hf))
    refine ⟨h1, ?_, by rw [h3]; rfl, by rw [h4]; rfl, by rw [h5]; rfl⟩
    rw [h2]
    show r.successCount + 1 + rest.length = r.successCount + (rest.length + 1)
    omega

/-! ## The dangling-record cleanup -/

theorem cleanupLoop_counts (env : Env) (files : List TFile) :
    ∀ (ds : List Doc) (db : DB) (r : EmbeddingResult),
      (cleanupLoop env files db r ds).2.successCount = r.successCount ∧
      (cleanupLoop env files db r ds).2.updatedCount = r.updatedCount ∧
      (cleanupLoop env files db r ds).2.deleteCount = r.deleteCount +
        (ds.filter (fun d => !(files.any (fun f => f.path == d.path)))).length ∧
      (cleanupLoop env files db r ds).2.errorCount = r.errorCount +
        (ds.filter (fun d =>
          !(files.any (fun f => f.path == d.path)) && env.deleteDocFail d.path)).length
  | [], db, r => by simp [cleanupLoop]
  | d :: ds, db, r => by
    cases hA : files.any (fun f => f.path == d.path) with
    | true =>
      have e : cleanupLoop env files db r (d :: ds) = cleanupLoop env files db r ds := by
        simp [cleanupLoop, hA]
      obtain ⟨h1, h2, h3, h4⟩ := cleanupLoop_counts env files ds db r
      rw [e]
      exact ⟨h1, h2, by rw [h3]; simp [hA], by rw [h4]; simp [hA]⟩
    | false =>
      cases hD : env.deleteDocFail d.path with
      | true =>
        have e : cleanupLoop env files db r (d :: ds) = cleanupLoop env files db
            { r with errorCount := r.errorCount + 1, deleteCount := r.deleteCount + 1 }
            ds := by
          simp [cleanupLoop, hA, hD]
        obtain ⟨h1, h2, h3, h4⟩ := cleanupLoop_counts env files ds db
          { r with errorCount := r.errorCount + 1, deleteCount := r.deleteCount + 1 }
        rw [e]
        refine ⟨h1, h2, ?_, ?_⟩
        · rw [h3]
          simp [hA]
          omega
        · rw [h4]
          simp [hA, hD]
          omega
      | false =>
        have e : cleanupLoop env files db r (d :: ds) = cleanupLoop env files
            (db.deleteByPath d.path) { r with deleteCount := r.deleteCount + 1 } ds := by
          simp [cleanupLoop, hA, hD]
        obtain ⟨h1, h2, h3, h4⟩ := cleanupLoop_counts env files ds (db.deleteByPath d.path)
          { r with deleteCount := r.deleteCount + 1 }
        rw [e]
        refine ⟨h1, h2, ?_, ?_⟩
        · rw [h3]
          simp [hA]
          omega
        · rw [h4]
          simp [hA, hD]

theorem cleanupLoop_skip (env : Env) (files : List TFile) :
    ∀ (ds : List Doc) (db : DB) (r : EmbeddingResult),
      (∀ d ∈ ds, files.any (fun f => f.path == d.path) = true) →
      cleanupLoop env files db r ds = (db, r)
  | [], db, r, _ => rfl
  | d :: ds, db, r, h => by
    have hA := h d (List.mem_cons_self d ds)
    have e : cleanupLoop env files db r (d :: ds) = cleanupLoop env files db r ds := by
      simp [cleanupLoop, hA]
    rw [e]
    exact cleanupLoop_skip env files ds db r (fun x hx => h x (List.mem_cons_of_mem d hx))

theorem cleanupLoop_frame (env : Env) (files : List TFile) :
    ∀ (ds : List Doc) (db : DB) (r : EmbeddingResult) (q : String),
      files.any (fun f => f.path == q) = true →
      (cleanupLoop env files db r ds).1.findByPath q = db.findByPath q
  | [], db, r, q, _ => rfl
  | d :: ds, db, r, q, hq => by
    cases hA : files.any (fun f => f.path == d.path) with
    | true =>
      have e : cleanupLoop env files db r (d :: ds) = cleanupLoop env files db r ds := by
        simp [cleanupLoop, hA]
      rw [e]
      exact cleanupLoop_frame env files ds db r q hq
    | false =>
      cases hD : env.deleteDocFail d.path with
      | true =>
        have e : cleanupLoop env files db r (d :: ds) = cleanupLoop env files db
            { r with errorCount := r.errorCount + 1, deleteCount := r.deleteCount + 1 }
            ds := by
          simp [cleanupLoop, hA, hD]
        rw [e]
        exact cleanupLoop_frame env files ds db _ q hq
      | false =>
        have e : cleanupLoop env files db r (d :: ds) = cleanupLoop env files
            (db.deleteByPath d.path) { r with deleteCount := r.deleteCount + 1 } ds := by
          simp [cleanupLoop, hA, hD]
        rw [e]
        rw [cleanupLoop_frame env files ds (db.deleteByPath d.path) _ q hq]
        apply DB.findByPath_deleteByPath_other
        intro hqd
        rw [hqd] at hq
        rw [hq] at hA
        cases hA

theorem cleanupLoop_WF (env : Env) (files : List TFile) :
    ∀ (ds : List Doc) (db : DB) (r : EmbeddingResult), db.WF →
      (cleanupLoop env files db r ds).1.WF
  | [], _, _, hwf => hwf
  | d :: ds, db, r, hwf => by
    cases hA : files.any (fun f => f.path == d.path) with
    | true =>
      have e : cleanupLoop env files db r (d :: ds) = cleanupLoop env files db r ds := by
        simp [cleanupLoop, hA]
      rw [e]
      exact cleanupLoop_WF env files ds db r hwf
    | false =>
      cases hD : env.deleteDocFail d.path with
      | true =>
        have e : cleanupLoop env files db r (d :: ds) = cleanupLoop env files db
            { r with errorCount := r.errorCount + 1, deleteCount := r.deleteCount + 1 }
            ds := by
          simp [cleanupLoop, hA, hD]
        rw [e]
        exact cleanupLoop_WF env files ds db _ hwf
      | false =>
        have e : cleanupLoop env files db r (d :: ds) = cleanupLoop env files
            (db.deleteByPath d.path) { r with deleteCount := r.deleteCount + 1 } ds := by
          simp [cleanupLoop, hA, hD]
        rw [e]
        exact cleanupLoop_WF env files ds _ _ (DB.WF_deleteByPath db hwf d.path)

theorem cleanupLoop_post (env : Env) (files : List TFile)
    (hdel : ∀ p, env.deleteDocFail p = false) :
    ∀ (ds : List Doc) (db : DB) (r : EmbeddingResult),
      (∀ x ∈ db.documents, files.any (fun f => f.path == x.path) = true ∨ x ∈ ds) →
      ∀ x ∈ (cleanupLoop env files db r ds).1.documents,
        files.any (fun f => f.path == x.path) = true
  | [], db, r, hinv => by
    intro x hx
    rcases hinv x hx with h | h
    · exact h
    · cases h
  | d :: ds, db, r, hinv => by
    cases hA : files.any (fun f => f.path == d.path) with
    | true =>
      have e : cleanupLoop env files db r (d :: ds) = cleanupLoop env files db r ds := by
        simp [cleanupLoop, hA]
      rw [e]
      apply cleanupLoop_post env files hdel ds db r
      intro x hx
      rcases hinv x hx with h | h
      · exact Or.inl h
      · rcases List.mem_cons.mp h with h' | h'
        · exact Or.inl (h' ▸ hA)
        · exact Or.inr h'
    | false =>
      have e : cleanupLoop env files db r (d :: ds) = cleanupLoop env files
          (db.deleteByPath d.path) { r with deleteCount := r.deleteCount + 1 } ds := by
        simp [cleanupLoop, hA, hdel d.path]
      rw [e]
      apply cleanupLoop_post env files hdel ds (db.deleteByPath d.path) _
      intro x hx
      have hx' : x ∈ db.documents ∧ (x.path != d.path) = true := by
        have := List.mem_filter.mp hx
        exact ⟨this.1, this.2⟩
      rcases hinv x hx'.1 with h | h
      · exact Or.inl h
      · rcases List.mem_cons.mp h with h' | h'
        · exfalso
          have : x.path = d.path := by rw [h']
          simpa [this] using hx'.2
        · exact Or.inr h'

/-! ## Claim C2 — the context-assembly budget -/

theorem contextLoop_budget (encode : String → Nat) :
    ∀ (cs : List String) (acc : Nat) (ctx : String),
      contextLoop encode cs acc ctx = ctx ++ ctxConcat (budgetTake encode cs acc)
  | [], acc, ctx => by simp [contextLoop, budgetTake, ctxConcat]
  | c :: cs, acc, ctx => by
    by_cases h : 1500 ≤ acc + encode c
    · simp [contextLoop, budgetTake, ctxConcat, h]
    · have e1 : contextLoop encode (c :: cs) acc ctx =
          contextLoop encode cs (acc + encode c) (ctx ++ jsTrim c ++ "\n---\n") := by
        simp [contextLoop, h]
      have e2 : budgetTake encode (c :: cs) acc =
          c :: budgetTake encode cs (acc + encode c) := by
        simp [budgetTake, h]
      rw [e1, contextLoop_budget encode cs (acc + encode c) _, e2]
      show ctx ++ jsTrim c ++ "\n---\n" ++ _ = ctx ++ ctxConcat (c :: _)
      simp only [ctxConcat, String.append_assoc]

/-- C2: the Context Assembler accumulates ranked section contents in
order, adding each candidate's token count to a running total, and stops
— excluding the section whose count makes the total reach or exceed the
1500 budget: the assembled context is exactly the concatenation of the
longest prefix of sections whose running totals all stay below 1500
(`budgetTake`).  In particular, for token counts `[600, 600, 600]` the
context holds exactly the first two sections. -/
theorem c2_context_budget (encode : String → Nat) (ms : List String) :
    contextLoop encode ms 0 "" = ctxConcat (budgetTake encode ms 0) ∧
    budgetTake (fun _ => 600) ["s1", "s2", "s3"] 0 = ["s1", "s2"] ∧
    contextLoop (fun _ => 600) ["s1", "s2", "s3"] 0 "" = "s1\n---\ns2\n---\n" := by
  refine ⟨?_, by decide, by decide⟩
  rw [contextLoop_budget]
  rfl

/-! ## Claim C3 — per-document failures are counted, never aborting -/

/-- C3: every scanned document reaches exactly one terminal outcome —
the loop's success and error tallies sum to the number of scanned files
whatever failures occur, so a failing document is counted and the loop
proceeds; the full pass (`generateEmbeddings`) returns those same
success/updated tallies, with the error tally only ever increased by the
dangling cleanup. -/
theorem c3_no_abort (env : Env) (excl pubs : List String) (allFiles : List TFile)
    (db : DB) :
    (processAll env pubs db ⟨0, 0, 0, 0⟩
        (allFiles.filter (fun f => !isFileInDirectories env f.path excl))).2.successCount +
      (processAll env pubs db ⟨0, 0, 0, 0⟩
        (allFiles.filter (fun f => !isFileInDirectories env f.path excl))).2.errorCount =
      (allFiles.filter (fun f => !isFileInDirectories env f.path excl)).length ∧
    (generateEmbeddings env excl pubs allFiles db).2.successCount =
      (processAll env pubs db ⟨0, 0, 0, 0⟩
        (allFiles.filter (fun f => !isFileInDirectories env f.path excl))).2.successCount ∧
    (generateEmbeddings env excl pubs allFiles db).2.updatedCount =
      (processAll env pubs db ⟨0, 0, 0, 0⟩
        (allFiles.filter (fun f => !isFileInDirectories env f.path excl))).2.updatedCount ∧
    (processAll env pubs db ⟨0, 0, 0, 0⟩
        (allFiles.filter (fun f => !isFileInDirectories env f.path excl))).2.errorCount ≤
      (generateEmbeddings env excl pubs allFiles db).2.errorCount := by
  set files := allFiles.filter (fun f => !isFileInDirectories env f.path excl) with hfiles
  set pr := processAll env pubs db ⟨0, 0, 0, 0⟩ files with hpr
  have hsum := processAll_success_error env pubs files db ⟨0, 0, 0, 0⟩
  have hgen : generateEmbeddings env excl pubs allFiles db = cleanup env files pr.1 pr.2 := rfl
  refine ⟨by rw [← hpr] at hsum; simpa using hsum.1, ?_, ?_, ?_⟩ <;> rw [hgen] <;>
    unfold cleanup
  · cases h : env.listAllFail with
    | true => simp
    | false =>
      simp only [Bool.false_eq_true, if_false]
      exact (cleanupLoop_counts env files pr.1.documents pr.1 pr.2).1
  · cases h : env.listAllFail with
    | true => simp
    | false =>
      simp only [Bool.false_eq_true, if_false]
      exact (cleanupLoop_counts env files pr.1.documents pr.1 pr.2).2.1
  · cases h : env.listAllFail with
    | true => simp
    | false =>
      simp only [Bool.false_eq_true, if_false]
      rw [(cleanupLoop_counts env files pr.1.documents pr.1 pr.2).2.2.2]
      omega

/-! ## Claim C10 — deleteCount counts attempted dangling deletions -/

/-- C10: in the dangling cleanup, `deleteCount` grows by one for every
stored document whose path is absent from the scan, whether or not its
delete succeeded, while `errorCount` grows by one exactly for the
dangling documents whose delete failed — so a failed dangling delete
increments both tallies and `deleteCount` counts attempts. -/
theorem c10_delete_attempts (env : Env) (files : List TFile) (db : DB)
    (r : EmbeddingResult) (hlist : env.listAllFail = false) :
    (cleanup env files db r).2.deleteCount = r.deleteCount +
      (db.documents.filter (fun d => !(files.any (fun f => f.path == d.path)))).length ∧
    (cleanup env files db r).2.errorCount = r.errorCount +
      (db.documents.filter (fun d =>
        !(files.any (fun f => f.path == d.path)) && env.deleteDocFail d.path)).length := by
  unfold cleanup
  rw [hlist]
  simp only [Bool.false_eq_true, if_false]
  exact ⟨(cleanupLoop_counts env files db.documents db r).2.2.1,
    (cleanupLoop_counts env files db.documents db r).2.2.2⟩

/-- Witness for C10: a store holding one document at path `"gone"`, a
scan that no longer contains it, and an environment whose delete of
`"gone"` fails: the pass counts one attempted deletion and one error. -/
theorem c10_delete_attempts_witness :
    (cleanup envDelFailW [⟨"keep", "x"⟩] dbGoneW ⟨0, 0, 0, 0⟩).2.deleteCount = 1 ∧
    (cleanup envDelFailW [⟨"keep", "x"⟩] dbGoneW ⟨0, 0, 0, 0⟩).2.errorCount = 1 := by
  have h := c10_delete_attempts envDelFailW [⟨"keep", "x"⟩] dbGoneW ⟨0, 0, 0, 0⟩ rfl
  exact ⟨h.1.trans (by decide), h.2.trans (by decide)⟩

/-! ## Claim C5 — an access-only change touches nothing else -/

/-- C5: when the stored checksum matches the content hash but the stored
public flag differs from the directory-derived value, the pass updates
only that document's public flag — its checksum and meta survive in the
updated row, no section row changes, every other path's row is untouched
— and the outcome counts as one success and one update. -/
theorem c5_access_only_update (env : Env) (pubs : List String) (db : DB) (file : TFile)
    (d : Doc) (hwf : db.WF)
    (hfetch : env.fetchDocFail file.path = false)
    (hfind : db.findByPath file.path = some d)
    (hsum : d.checksum = some (env.hash file.content))
    (hpub : d.public ≠ isFileInDirectories env file.path pubs)
    (hupd : env.updateAccessFail d.id = false) :
    (processFile env pubs db file).2 = .accessUpdated ∧
    (processFile env pubs db file).1.sections = db.sections ∧
    (processFile env pubs db file).1.findByPath file.path =
      some { d with public := isFileInDirectories env file.path pubs } ∧
    (∀ q, q ≠ file.path →
      (processFile env pubs db file).1.findByPath q = db.findByPath q) ∧
    (∀ r : EmbeddingResult, Outcome.apply r .accessUpdated =
      { r with successCount := r.successCount + 1, updatedCount := r.updatedCount + 1 }) := by
  have hstep := processFile_access env pubs db file d hfetch hfind hsum hpub hupd
  have hd : d ∈ db.documents := List.mem_of_find?_eq_some hfind
  have hdp : d.path = file.path := by simpa using List.find?_some hfind
  rw [hstep]
  refine ⟨rfl, rfl, ?_, ?_, fun r => rfl⟩
  · show (db.updateAccess d.id _).findByPath file.path = _
    rw [DB.findByPath_updateAccess, hfind]
    simp
  · intro q hq
    show (db.updateAccess d.id _).findByPath q = _
    rw [DB.findByPath_updateAccess]
    cases hfq : db.findByPath q with
    | none => rfl
    | some x =>
      have hx : x ∈ db.documents := List.mem_of_find?_eq_some hfq
      have hxq : x.path = q := by simpa using List.find?_some hfq
      have hxid : x.id ≠ d.id := by
        intro h
        exact hq (by rw [← hxq, hwf.id_inj hx hd h, hdp])
      simp [hxid]

/-- Witness for C5: a store whose record of `a.md` has a matching
checksum but a stale `public = true` flag under empty public-directory
rules: only the flag flips, sections survive, and the outcome counts as
success and update. -/
theorem c5_access_only_update_witness :
    (processFile envOkW [] dbStaleAccessW ⟨"a.md", "x"⟩).2 = .accessUpdated ∧
    (processFile envOkW [] dbStaleAccessW ⟨"a.md", "x"⟩).1.sections =
      dbStaleAccessW.sections ∧
    (processFile envOkW [] dbStaleAccessW ⟨"a.md", "x"⟩).1.findByPath "a.md" =
      some ⟨0, "a.md", some "x#", "m", false⟩ ∧
    (∀ q, q ≠ "a.md" →
      (processFile envOkW [] dbStaleAccessW ⟨"a.md", "x"⟩).1.findByPath q =
        dbStaleAccessW.findByPath q) ∧
    (∀ r : EmbeddingResult, Outcome.apply r .accessUpdated =
      { r with successCount := r.successCount + 1, updatedCount := r.updatedCount + 1 }) := by
  have h := c5_access_only_update envOkW [] dbStaleAccessW ⟨"a.md", "x"⟩
    ⟨0, "a.md", some "x#", "m", true⟩ (by unfold DB.WF; decide) rfl (by decide)
    (by decide) (by decide) rfl
  exact h

/-! ## Claim C1 — crash safety of a failing reindex -/

theorem filter_docId_append (base rows : List DocSection) (id : Nat)
    (hbase : ∀ s ∈ base, s.document_id ≠ id)
    (hrows : ∀ s ∈ rows, s.document_id = id) :
    (base ++ rows).filter (fun s => s.document_id == id) = rows := by
  rw [List.filter_append]
  have h1 : base.filter (fun s => s.document_id == id) = [] := by
    rw [List.filter_eq_nil_iff]
    intro s hs
    simpa using hbase s hs
  have h2 : rows.filter (fun s => s.document_id == id) = rows := by
    rw [List.filter_eq_self]
    intro s hs
    simpa using hrows s hs
  rw [h1, h2, List.nil_append]

/-- C1: on the reindex path (no stored record, or a stored checksum that
does not match), once the document row has been upserted with a null
checksum, a first embedding/insertion failure at section `k` aborts the
document with outcome `errored`; the store then holds the document with
`checksum = none` and exactly the first `k` section contents — no
further section was committed.  Any later file of a different path and
the dangling cleanup (while the path is still scanned) leave that row
untouched, and a document with a null checksum is classified `Stale` or
`New` — never `Unchanged` — on the next pass, whatever the file content
then is. -/
theorem c1_crash_safety (env : Env) (pubs : List String) (db : DB) (file : TFile)
    (k : Nat) (hwf : db.WF)
    (hfetch : env.fetchDocFail file.path = false)
    (hbranch : ∀ d, db.findByPath file.path = some d →
      d.checksum ≠ some (env.hash file.content))
    (hdel : ∀ d, db.findByPath file.path = some d →
      env.deleteSectionsFail d.id = false)
    (hups : env.upsertFail file.path = false)
    (hfail : firstFailure env (reindexId db file.path)
      (splitIntoParagraphs (parseMarkdown env file.content).1) = some k) :
    ∃ db' d',
      processFile env pubs db file = (db', .errored) ∧
      db'.WF ∧
      db'.findByPath file.path = some d' ∧
      d'.checksum = none ∧
      db'.sectionContentsFor d'.id =
        (splitIntoParagraphs (parseMarkdown env file.content).1).take k ∧
      (∀ file' : TFile, file'.path = file.path →
        classify env pubs db' file' ≠ .unchangedS ∧
        (classify env pubs db' file' = .staleS ∨ classify env pubs db' file' = .newS)) ∧
      (∀ (rest : List TFile) (r : EmbeddingResult),
        (∀ g ∈ rest, g.path ≠ file.path) →
        (processAll env pubs db' r rest).1.findByPath file.path = some d') ∧
      (∀ (cfiles : List TFile) (dbX : DB) (r : EmbeddingResult),
        dbX.findByPath file.path = some d' →
        cfiles.any (fun f => f.path == file.path) = true →
        (cleanup env cfiles dbX r).1.findByPath file.path = some d') := by
  -- Reduce both reindex entries (fresh path / stale record) to `reindex`
  -- applied to a base store whose sections hold nothing under the new id.
  obtain ⟨db0, hstep, hwf0, hfreshSec, hfindEq⟩ :
      ∃ db0 : DB,
        processFile env pubs db file =
          reindex env db0 file (env.hash file.content)
            (isFileInDirectories env file.path pubs) ∧
        db0.WF ∧
        (∀ s ∈ db0.sections, s.document_id ≠ reindexId db0 file.path) ∧
        reindexId db0 file.path = reindexId db file.path := by
    cases hfind : db.findByPath file.path with
    | none =>
      refine ⟨db, processFile_new env pubs db file hfetch hfind, hwf, ?_, rfl⟩
      intro s hs
      have hlt := hwf.2.2 s hs
      have : reindexId db file.path = db.nextId := by
        unfold reindexId
        rw [hfind]
      rw [this]
      exact Nat.ne_of_lt hlt
    | some d =>
      refine ⟨db.deleteSectionsFor d.id,
        processFile_stale env pubs db file d hfetch hfind (hbranch d hfind)
          (hdel d hfind), DB.WF_deleteSectionsFor db hwf d.id, ?_, rfl⟩
      intro s hs
      have hid : reindexId (db.deleteSectionsFor d.id) file.path = d.id := by
        unfold reindexId
        show (match db.findByPath file.path with
          | some d => d.id
          | none => db.nextId) = d.id
        rw [hfind]
      rw [hid]
      have := (List.mem_filter.mp hs).2
      simpa using this
  obtain ⟨d', rows, ho, hwf', hfound, hchk, hpubEq, hid, hsec, hdocid, hcont, hframe, _⟩ :=
    reindex_fail env db0 file (env.hash file.content)
      (isFileInDirectories env file.path pubs) hwf0 hups k (hfindEq ▸ hfail)
  refine ⟨(reindex env db0 file (env.hash file.content)
      (isFileInDirectories env file.path pubs)).1, d', ?_, hwf', hfound, hchk, ?_, ?_, ?_, ?_⟩
  · rw [hstep]
    exact Prod.ext rfl ho
  · unfold DB.sectionContentsFor
    rw [hsec, filter_docId_append db0.sections rows d'.id ?_ hdocid, hcont]
    intro s hs
    rw [hid, hfindEq]
    exact hfindEq ▸ (hfreshSec s hs)
  · intro file' hp
    have hclass : classify env pubs (reindex env db0 file (env.hash file.content)
        (isFileInDirectories env file.path pubs)).1 file' = .staleS := by
      unfold classify
      rw [hp, hfound]
      simp [hchk]
    rw [hclass]
    refine ⟨fun h => ?_, Or.inl rfl⟩
    cases h
  · intro rest r hrest
    obtain ⟨_, hfr, _⟩ := processAll_WF_frame env pubs rest _ r hwf'
    rw [hfr file.path hrest]
    exact hfound
  · intro cfiles dbX r hX hany
    unfold cleanup
    cases hL : env.listAllFail with
    | true => simpa using hX
    | false =>
      simp only [Bool.false_eq_true, if_false]
      rw [cleanupLoop_frame env cfiles dbX.documents dbX r file.path hany]
      exact hX

/-- Witness for C1: indexing `n.md` with body `"ok\n\nbad\n\nzz"` into an
empty store under an environment whose embedding of `"bad"` fails: the
document errors at section index 1, keeping a null checksum and exactly
the one committed section `"ok"`. -/
theorem c1_crash_safety_witness :
    ∃ db' d',
      processFile envEmbedFailW [] dbEmptyW ⟨"n.md", "ok\n\nbad\n\nzz"⟩ = (db', .errored) ∧
      db'.WF ∧
      db'.findByPath "n.md" = some d' ∧
      d'.checksum = none ∧
      db'.sectionContentsFor d'.id =
        (splitIntoParagraphs
          (parseMarkdown envEmbedFailW (TFile.mk "n.md" "ok\n\nbad\n\nzz").content).1).take 1 ∧
      (∀ file' : TFile, file'.path = "n.md" →
        classify envEmbedFailW [] db' file' ≠ .unchangedS ∧
        (classify envEmbedFailW [] db' file' = .staleS ∨
          classify envEmbedFailW [] db' file' = .newS)) ∧
      (∀ (rest : List TFile) (r : EmbeddingResult),
        (∀ g ∈ rest, g.path ≠ "n.md") →
        (processAll envEmbedFailW [] db' r rest).1.findByPath "n.md" = some d') ∧
      (∀ (cfiles : List TFile) (dbX : DB) (r : EmbeddingResult),
        dbX.findByPath "n.md" = some d' →
        cfiles.any (fun f => f.path == "n.md") = true →
        (cleanup envEmbedFailW cfiles dbX r).1.findByPath "n.md" = some d') :=
  c1_crash_safety envEmbedFailW [] dbEmptyW ⟨"n.md", "ok\n\nbad\n\nzz"⟩ 1
    (by unfold DB.WF; decide) rfl
    (fun d hd => Option.noConfusion hd)
    (fun d hd => Option.noConfusion hd)
    rfl (by decide)

/-! ## Claim C4 — a second pass over an unchanged corpus -/

/-- C4: running the sync pass twice over the same corpus (documents with
distinct paths, nothing changed between runs) with every provider and
store call succeeding yields `updatedCount = 0` and `errorCount = 0` on
the second run: after the first pass every scanned file's record is
current, so the second pass classifies everything `Unchanged` and the
cleanup finds nothing dangling. -/
theorem c4_idempotent (env : Env) (excl pubs : List String) (allFiles : List TFile)
    (db : DB) (hok : env.AllOk) (hwf : db.WF)
    (hnd : (allFiles.map TFile.path).Nodup) :
    (generateEmbeddings env excl pubs allFiles
      (generateEmbeddings env excl pubs allFiles db).1).2.updatedCount = 0 ∧
    (generateEmbeddings env excl pubs allFiles
      (generateEmbeddings env excl pubs allFiles db).1).2.errorCount = 0 := by
  obtain ⟨hfetch, hembed, hds, hups, hins, hua, huc, hlist, hdd⟩ := hok
  have hok' : env.AllOk := ⟨hfetch, hembed, hds, hups, hins, hua, huc, hlist, hdd⟩
  set files := allFiles.filter (fun f => !isFileInDirectories env f.path excl) with hfiles
  have hndf : (files.map TFile.path).Nodup :=
    List.Nodup.sublist (List.Sublist.map TFile.path (List.filter_sublist allFiles)) hnd
  set p1 := processAll env pubs db ⟨0, 0, 0, 0⟩ files with hp1
  obtain ⟨hwf1, hgood1⟩ :=
    processAll_allOk_state env pubs hok' files db ⟨0, 0, 0, 0⟩ hwf hndf
  have hclean1 : cleanup env files p1.1 p1.2 =
      cleanupLoop env files p1.1 p1.2 p1.1.documents := by
    unfold cleanup
    rw [hlist]
    simp
  set db1 := (cleanupLoop env files p1.1 p1.2 p1.1.documents).1 with hdb1
  have hinner : (generateEmbeddings env excl pubs allFiles db).1 = db1 := by
    show (cleanup env files p1.1 p1.2).1 = db1
    rw [hclean1]
  have hgoodc : ∀ f ∈ files, goodDoc env pubs db1 f := by
    intro f hf
    obtain ⟨d, hd, h2, h3⟩ := hgood1 f hf
    refine ⟨d, ?_, h2, h3⟩
    rw [hdb1, cleanupLoop_frame env files p1.1.documents p1.1 p1.2 f.path
      (List.any_eq_true.mpr ⟨f, hf, by simp⟩)]
    exact hd
  have hpost : ∀ x ∈ db1.documents, files.any (fun g => g.path == x.path) = true := by
    rw [hdb1]
    exact cleanupLoop_post env files hdd p1.1.documents p1.1 p1.2 (fun x hx => Or.inr hx)
  set p2 := processAll env pubs db1 ⟨0, 0, 0, 0⟩ files with hp2
  obtain ⟨hstate2, _, hupd2, herr2, _⟩ :=
    processAll_good_counts env pubs hfetch files db1 ⟨0, 0, 0, 0⟩ hgoodc
  have hskip : cleanup env files p2.1 p2.2 = (p2.1, p2.2) := by
    unfold cleanup
    rw [hlist]
    simp only [Bool.false_eq_true, if_false]
    apply cleanupLoop_skip
    intro d hd
    rw [hstate2] at hd
    exact hpost d hd
  rw [hinner]
  have hgen2 : generateEmbeddings env excl pubs allFiles db1 = (p2.1, p2.2) := by
    show cleanup env files p2.1 p2.2 = _
    exact hskip
  rw [hgen2]
  exact ⟨hupd2, herr2⟩

/-- Witness for C4: two successive passes over the one-file corpus
`a.md` starting from the empty store, with everything succeeding, yield
no updates and no errors on the second pass. -/
theorem c4_idempotent_witness :
    (generateEmbeddings envOkW [] [] [⟨"a.md", "x"⟩]
      (generateEmbeddings envOkW [] [] [⟨"a.md", "x"⟩] dbEmptyW).1).2.updatedCount = 0 ∧
    (generateEmbeddings envOkW [] [] [⟨"a.md", "x"⟩]
      (generateEmbeddings envOkW [] [] [⟨"a.md", "x"⟩] dbEmptyW).1).2.errorCount = 0 :=
  c4_idempotent envOkW [] [] [⟨"a.md", "x"⟩] dbEmptyW
    ⟨fun _ => rfl, fun _ => rfl, fun _ => rfl, fun _ => rfl, fun _ _ => rfl,
      fun _ => rfl, fun _ => rfl, rfl, fun _ => rfl⟩
    (by unfold DB.WF; decide) (by decide)

/-! ## The read path: branch lemmas -/

theorem searchCore_embedFail (env : SEnv) (sq : String) (th : Rat) (cnt minLen : Nat)
    (tr0 : List Event) (h : env.embedOk (nlToSpace sq) = false) :
    searchCore env sq th cnt minLen tr0 =
      (.error .embedFailed, tr0 ++ [.embedReq (nlToSpace sq)]) := by
  unfold searchCore
  simp [h]

theorem searchCore_matchErr (env : SEnv) (sq : String) (th : Rat) (cnt minLen : Nat)
    (tr0 : List Event) (h : env.embedOk (nlToSpace sq) = true)
    (hm : env.matchRpc (env.embedVec (nlToSpace sq)) th cnt minLen = .error ()) :
    searchCore env sq th cnt minLen tr0 =
      (.error .retrievalError,
        tr0 ++ [.embedReq (nlToSpace sq), .matchReq (env.embedVec (nlToSpace sq))]) := by
  unfold searchCore
  simp [h, hm]

theorem searchCore_matchOk (env : SEnv) (sq : String) (th : Rat) (cnt minLen : Nat)
    (tr0 : List Event) (secs : List MatchSec) (h : env.embedOk (nlToSpace sq) = true)
    (hm : env.matchRpc (env.embedVec (nlToSpace sq)) th cnt minLen = .ok secs) :
    searchCore env sq th cnt minLen tr0 =
      ((hydrateLoop env secs).1,
        tr0 ++ [.embedReq (nlToSpace sq), .matchReq (env.embedVec (nlToSpace sq))] ++
          (hydrateLoop env secs).2) := by
  unfold searchCore
  simp [h, hm]

theorem searchCore_trace (env : SEnv) (sq : String) (th : Rat) (cnt minLen : Nat)
    (tr0 : List Event) :
    ∃ tr1, (searchCore env sq th cnt minLen tr0).2 = tr0 ++ tr1 := by
  cases h : env.embedOk (nlToSpace sq) with
  | false => exact ⟨_, by rw [searchCore_embedFail env sq th cnt minLen tr0 h]⟩
  | true =>
    cases hm : env.matchRpc (env.embedVec (nlToSpace sq)) th cnt minLen with
    | error e =>
      cases e
      exact ⟨_, by rw [searchCore_matchErr env sq th cnt minLen tr0 h hm]⟩
    | ok secs =>
      refine ⟨[.embedReq (nlToSpace sq), .matchReq (env.embedVec (nlToSpace sq))] ++
        (hydrateLoop env secs).2, ?_⟩
      rw [searchCore_matchOk env sq th cnt minLen tr0 secs h hm]
      simp [List.append_assoc]

theorem hydrateLoop_error_is_fetch (env : SEnv) :
    ∀ (secs : List MatchSec) (e : SearchErr),
      (hydrateLoop env secs).1 = .error e → e = .fetchDocError
  | [], e, h => by simp [hydrateLoop] at h
  | s :: rest, e, h => by
    unfold hydrateLoop at h
    cases hf : env.fetchDoc s.document_id with
    | error u =>
      rw [hf] at h
      simpa using h.symm
    | ok d =>
      rw [hf] at h
      cases hrec : (hydrateLoop env rest).1 with
      | error e' =>
        rw [hrec] at h
        simp at h
        rw [← h]
        exact hydrateLoop_error_is_fetch env rest e' hrec
      | ok hs =>
        rw [hrec] at h
        simp at h

theorem semanticSearchM_sanitized (env : SEnv) (q : String)
    (hfl : env.flagged (jsTrim q) = false) :
    semanticSearchM env q true =
      searchCore env (jsTrim q) (78 / 100) 10 50 [.moderation (jsTrim q)] := by
  unfold semanticSearchM
  simp [hfl]

theorem semanticSearchM_flagged (env : SEnv) (q : String)
    (hfl : env.flagged (jsTrim q) = true) :
    semanticSearchM env q true = (.error .flagged, [.moderation (jsTrim q)]) := by
  unfold semanticSearchM
  simp [hfl]

theorem generativeSearchM_flagged (env : SEnv) (q : String)
    (hfl : env.flagged (jsTrim q) = true) :
    generativeSearchM env q = (.error .flagged, [.moderation (jsTrim q)]) := by
  unfold generativeSearchM
  simp [hfl]

theorem generativeSearchM_trace_head (env : SEnv) (q : String) :
    (generativeSearchM env q).2.head? = some (.moderation (jsTrim q)) := by
  unfold generativeSearchM
  cases hfl : env.flagged (jsTrim q) with
  | true => simp [hfl]
  | false =>
    simp only [hfl, Bool.false_eq_true, if_false]
    cases hsr : (semanticSearchM env (jsTrim q) false).1 with
    | error e => simp [hsr]
    | ok ms =>
      simp only [hsr]
      cases env.chatChoices (mkPrompt personaIntro
          (contextLoop env.encode (ms.map (fun s => s.content)) 0 "") (jsTrim q)) with
      | nil => simp
      | cons c cs => simp

theorem semanticSearchM_trace_head (env : SEnv) (q : String) :
    (semanticSearchM env q true).2.head? = some (.moderation (jsTrim q)) := by
  cases hfl : env.flagged (jsTrim q) with
  | true => rw [semanticSearchM_flagged env q hfl]; rfl
  | false =>
    rw [semanticSearchM_sanitized env q hfl]
    obtain ⟨tr1, htr⟩ := searchCore_trace env (jsTrim q) (78 / 100) 10 50
      [.moderation (jsTrim q)]
    rw [htr]
    simp

/-! ## Claim C7 — the moderation gate precedes embedding -/

/-- C7: a flagged (trimmed) query makes both search entry points return
the flagged-content error with the moderation request as the only
provider call ever issued — in particular the embedding provider is
never invoked — and for every query whatsoever the first provider call
of either entry point is the moderation request, so moderation always
precedes any embedding request. -/
theorem c7_moderation_gate (env : SEnv) (q : String)
    (hf : env.flagged (jsTrim q) = true) :
    semanticSearchM env q true = (.error .flagged, [.moderation (jsTrim q)]) ∧
    generativeSearchM env q = (.error .flagged, [.moderation (jsTrim q)]) ∧
    (∀ s, Event.embedReq s ∉ (semanticSearchM env q true).2) ∧
    (∀ s, Event.embedReq s ∉ (generativeSearchM env q).2) ∧
    (∀ q' : String,
      (semanticSearchM env q' true).2.head? = some (.moderation (jsTrim q')) ∧
      (generativeSearchM env q').2.head? = some (.moderation (jsTrim q'))) := by
  have h1 := semanticSearchM_flagged env q hf
  have h2 := generativeSearchM_flagged env q hf
  refine ⟨h1, h2, ?_, ?_, ?_⟩
  · intro s
    rw [h1]
    simp
  · intro s
    rw [h2]
    simp
  · intro q'
    exact ⟨semanticSearchM_trace_head env q', generativeSearchM_trace_head env q'⟩

/-- Witness for C7: under `senvFlagW` the query `" bad "` trims to the
flagged text `"bad"`; both entry points fail with the flagged error, no
embedding request is issued, and traces start with moderation. -/
theorem c7_moderation_gate_witness :
    semanticSearchM senvFlagW " bad " true = (.error .flagged, [.moderation "bad"]) ∧
    generativeSearchM senvFlagW " bad " = (.error .flagged, [.moderation "bad"]) ∧
    (∀ s, Event.embedReq s ∉ (semanticSearchM senvFlagW " bad " true).2) ∧
    (∀ s, Event.embedReq s ∉ (generativeSearchM senvFlagW " bad ").2) ∧
    (∀ q' : String,
      (semanticSearchM senvFlagW q' true).2.head? = some (.moderation (jsTrim q')) ∧
      (generativeSearchM senvFlagW q').2.head? = some (.moderation (jsTrim q'))) := by
  have h := c7_moderation_gate senvFlagW " bad " (by decide)
  have he : jsTrim " bad " = "bad" := by decide
  rw [he] at h
  exact h

/-! ## Claim C8 — retrieval error exactly on a failed match query -/

/-- C8: the edge-function `semanticSearch` fails with the retrieval
error exactly when the embedding succeeded and the nearest-neighbor
match query itself reported an error — a failure of the later
per-section document fetch surfaces as a different error — and a
successful match query with zero matches yields the empty result list
rather than a failure. -/
theorem c8_retrieval_error (env : SEnv) (q : String) (th : Rat) (cnt minLen : Nat) :
    ((semanticSearchSB env q th cnt minLen).1 = .error .retrievalError ↔
      env.embedOk (nlToSpace q) = true ∧
        env.matchRpc (env.embedVec (nlToSpace q)) th cnt minLen = .error ()) ∧
    (env.embedOk (nlToSpace q) = true →
      env.matchRpc (env.embedVec (nlToSpace q)) th cnt minLen = .ok [] →
      (semanticSearchSB env q th cnt minLen).1 = .ok []) := by
  have hdef : semanticSearchSB env q th cnt minLen = searchCore env q th cnt minLen [] := rfl
  refine ⟨⟨?_, ?_⟩, ?_⟩
  · intro hres
    cases hE : env.embedOk (nlToSpace q) with
    | false =>
      rw [hdef, searchCore_embedFail env q th cnt minLen [] hE] at hres
      simp at hres
    | true =>
      cases hm : env.matchRpc (env.embedVec (nlToSpace q)) th cnt minLen with
      | error e =>
        cases e
        exact ⟨rfl, rfl⟩
      | ok secs =>
        rw [hdef, searchCore_matchOk env q th cnt minLen [] secs hE hm] at hres
        have := hydrateLoop_error_is_fetch env secs .retrievalError hres
        cases this
  · rintro ⟨hE, hm⟩
    rw [hdef, searchCore_matchErr env q th cnt minLen [] hE hm]
  · intro hE hm
    rw [hdef, searchCore_matchOk env q th cnt minLen [] [] hE hm]
    rfl

/-- Witness for C8: under `senvMatchErrW` (embedding fine, match query
erroring) the edge-function search surfaces the retrieval error, as the
equivalence demands. -/
theorem c8_retrieval_error_witness :
    ((semanticSearchSB senvMatchErrW "q" (78 / 100) 10 50).1 = .error .retrievalError ↔
      senvMatchErrW.embedOk (nlToSpace "q") = true ∧
        senvMatchErrW.matchRpc (senvMatchErrW.embedVec (nlToSpace "q")) (78 / 100) 10 50 =
          .error ()) ∧
    (senvMatchErrW.embedOk (nlToSpace "q") = true →
      senvMatchErrW.matchRpc (senvMatchErrW.embedVec (nlToSpace "q")) (78 / 100) 10 50 =
        .ok [] →
      (semanticSearchSB senvMatchErrW "q" (78 / 100) 10 50).1 = .ok []) :=
  c8_retrieval_error senvMatchErrW "q" (78 / 100) 10 50

/-! ## Claim C9 — the "no answer" sentinel (corrected) -/

/-- Counterexample to C9 as stated: when the chat-completion provider
returns an empty `choices` list — the provider returning no completion —
`generativeSearch` throws (reading `choices[0]` of an empty list) instead
of returning a sentinel, and the caller displays nothing: the `"No
answer"` sentinel never reaches the caller. -/
theorem c9_counterexample :
    (generativeSearchM senvNoChoiceW "hi").1 = .error .noChoices ∧
    onAsk senvNoChoiceW "hi" = none ∧
    ¬ onAsk senvNoChoiceW "hi" = some "No answer" := by
  refine ⟨rfl, rfl, ?_⟩
  intro h
  rw [show onAsk senvNoChoiceW "hi" = none from rfl] at h
  exact Option.noConfusion h

/-- C9 (amended): when moderation passes, retrieval succeeds and the
chat-completion provider returns at least one choice, `generativeSearch`
returns the top choice's optional message content and the caller
displays it, substituting the `"No answer"` sentinel when the message or
its content is absent; when the provider returns an empty choices list,
`generativeSearch` instead throws and the caller receives nothing. -/
theorem c9_no_answer_amended (env : SEnv) (q : String) (ms : List HSec)
    (hflag : env.flagged (jsTrim q) = false)
    (hsem : (semanticSearchM env (jsTrim q) false).1 = .ok ms) :
    (env.chatChoices (mkPrompt personaIntro
        (contextLoop env.encode (ms.map (fun s => s.content)) 0 "") (jsTrim q)) = [] →
      (generativeSearchM env q).1 = .error .noChoices ∧ onAsk env q = none) ∧
    (∀ c cs, env.chatChoices (mkPrompt personaIntro
        (contextLoop env.encode (ms.map (fun s => s.content)) 0 "") (jsTrim q)) = c :: cs →
      (generativeSearchM env q).1 = .ok (c.message.bind (fun m => m.content)) ∧
      onAsk env q = some ((c.message.bind (fun m => m.content)).getD "No answer")) := by
  have hfst : (generativeSearchM env q).1 =
      (match env.chatChoices (mkPrompt personaIntro
          (contextLoop env.encode (ms.map (fun s => s.content)) 0 "") (jsTrim q)) with
        | [] => Except.error SearchErr.noChoices
        | c :: _ => Except.ok (c.message.bind (fun m => m.content))) := by
    unfold generativeSearchM
    simp only [hflag, Bool.false_eq_true, if_false]
    rw [hsem]
    dsimp only
    cases hc : env.chatChoices (mkPrompt personaIntro
        (contextLoop env.encode (ms.map (fun s => s.content)) 0 "") (jsTrim q)) with
    | nil => rfl
    | cons c cs => rfl
  constructor
  · intro hc
    rw [hc] at hfst
    refine ⟨hfst, ?_⟩
    unfold onAsk
    rw [hfst]
  · intro c cs hc
    rw [hc] at hfst
    refine ⟨hfst, ?_⟩
    unfold onAsk
    rw [hfst]

/-- Witness for the amended C9: under `senvNoContentW` the top choice
carries a message without content, so the caller displays the `"No
answer"` sentinel. -/
theorem c9_no_answer_amended_witness :
    (senvNoContentW.chatChoices (mkPrompt personaIntro
        (contextLoop senvNoContentW.encode (([] : List HSec).map (fun s => s.content)) 0 "")
        (jsTrim "hi")) = [] →
      (generativeSearchM senvNoContentW "hi").1 = .error .noChoices ∧
      onAsk senvNoContentW "hi" = none) ∧
    (∀ c cs, senvNoContentW.chatChoices (mkPrompt personaIntro
        (contextLoop senvNoContentW.encode (([] : List HSec).map (fun s => s.content)) 0 "")
        (jsTrim "hi")) = c :: cs →
      (generativeSearchM senvNoContentW "hi").1 = .ok (c.message.bind (fun m => m.content)) ∧
      onAsk senvNoContentW "hi" =
        some ((c.message.bind (fun m => m.content)).getD "No answer")) :=
  c9_no_answer_amended senvNoContentW "hi" [] (by decide) rfl

/-! ## Claim C6 — the section splitter (corrected) -/

theorem dropWhile_idem {α : Type} (p : α → Bool) :
    ∀ l : List α, (l.dropWhile p).dropWhile p = l.dropWhile p
  | [] => rfl
  | c :: l => by
    cases h : p c with
    | true => simp [List.dropWhile_cons, h, dropWhile_idem p l]
    | false => simp [List.dropWhile_cons, h]

theorem head?_dropWhile_false {α : Type} (p : α → Bool) :
    ∀ (l : List α) (c : α), (l.dropWhile p).head? = some c → p c = false
  | [], c, h => by simp at h
  | a :: l, c, h => by
    cases ha : p a with
    | true =>
      rw [List.dropWhile_cons, if_pos (by simp [ha])] at h
      exact head?_dropWhile_false p l c h
    | false =>
      rw [List.dropWhile_cons, if_neg (by simp [ha])] at h
      simp at h
      rw [← h]
      exact ha

theorem getLast?_dropWhile {α : Type} (p : α → Bool) :
    ∀ l : List α, l.dropWhile p ≠ [] → (l.dropWhile p).getLast? = l.getLast?
  | [], h => by simp at h
  | a :: l, h => by
    cases ha : p a with
    | false => rw [List.dropWhile_cons, if_neg (by simp [ha])]
    | true =>
      rw [List.dropWhile_cons, if_pos (by simp [ha])] at h ⊢
      have hl : l ≠ [] := by
        intro he
        rw [he] at h
        exact h rfl
      rw [getLast?_dropWhile p l h]
      cases l with
      | nil => exact absurd rfl hl
      | cons b l' => simp [List.getLast?_cons_cons]

theorem dropWhile_eq_self_of_head {α : Type} (p : α → Bool) (l : List α)
    (h : ∀ c, l.head? = some c → p c = false) : l.dropWhile p = l := by
  cases l with
  | nil => rfl
  | cons a l' =>
    have := h a rfl
    rw [List.dropWhile_cons, if_neg (by simp [this])]

theorem trimChars_idem (l : List Char) : trimChars (trimChars l) = trimChars l := by
  unfold trimChars
  set A := l.dropWhile jsWhitespace with hA
  set B := A.reverse.dropWhile jsWhitespace with hB
  have hstep1 : B.reverse.dropWhile jsWhitespace = B.reverse := by
    apply dropWhile_eq_self_of_head
    intro c hc
    rw [List.head?_reverse] at hc
    have hBne : B ≠ [] := by
      intro he
      rw [he] at hc
      simp at hc
    have h1 : B.getLast? = A.reverse.getLast? := by
      rw [hB]
      exact getLast?_dropWhile jsWhitespace A.reverse (hB ▸ hBne)
    rw [h1, List.getLast?_reverse] at hc
    exact head?_dropWhile_false jsWhitespace l c (hA ▸ hc)
  rw [hstep1, List.reverse_reverse]
  rw [hB, dropWhile_idem]

theorem jsTrim_idem (s : String) : jsTrim (jsTrim s) = jsTrim s := by
  show String.mk (trimChars (String.mk (trimChars s.toList)).toList) =
    String.mk (trimChars s.toList)
  rw [show (String.mk (trimChars s.toList)).toList = trimChars s.toList from rfl,
    trimChars_idem]

theorem nlLen_spec (l : List Char) (m : Nat) (h : nlLen l = some m) :
    1 ≤ m ∧ m ≤ l.length ∧ (l.take m).all jsWhitespace = true ∧
    (l.take m).getLast? = some '\n' ∧
    (∀ n, m ≤ n → (nlLen (l.take n)).isSome = true) := by
  match l with
  | [] => simp [nlLen] at h
  | [c] =>
    unfold nlLen at h
    dsimp only at h
    by_cases hc : c = '\n'
    · rw [if_pos hc] at h
      injection h with h
      subst h
      subst hc
      refine ⟨le_refl _, by simp, by simp [jsWhitespace], by simp, ?_⟩
      intro n hn
      match n with
      | k + 1 => simp [nlLen]
    · rw [if_neg hc] at h
      cases h
  | c :: d :: rest =>
    unfold nlLen at h
    dsimp only at h
    by_cases hcd : c = '\r' ∧ d = '\n'
    · rw [if_pos hcd] at h
      injection h with h
      subst h
      obtain ⟨hc, hd⟩ := hcd
      subst hc
      subst hd
      refine ⟨by omega, by simp, by simp [jsWhitespace], by simp, ?_⟩
      intro n hn
      match n with
      | k + 2 => simp [nlLen]
    · rw [if_neg hcd] at h
      by_cases hc : c = '\n'
      · rw [if_pos hc] at h
        injection h with h
        subst h
        subst hc
        refine ⟨le_refl _, by simp, by simp [jsWhitespace], by simp, ?_⟩
        intro n hn
        match n with
        | k + 1 =>
          match k with
          | 0 => simp [nlLen]
          | k' + 1 =>
            show (nlLen ('\n' :: d :: rest.take k')).isSome = true
            unfold nlLen
            dsimp only
            have hne : ¬('\n' = '\r' ∧ d = '\n') := by
              intro hh
              cases hh.1
            rw [if_neg hne, if_pos rfl]
            rfl
      · rw [if_neg hc] at h
        cases h

theorem bestFinalNl_spec (rest : List Char) :
    ∀ (j0 j m : Nat), bestFinalNl rest j0 = some (j, m) →
      j ≤ j0 ∧ nlLen (rest.drop j) = some m
  | 0, j, m, h => by
    unfold bestFinalNl at h
    cases hn : nlLen rest with
    | none => rw [hn] at h; cases h
    | some m' =>
      rw [hn, Option.map_some'] at h
      injection h with h
      injection h with h1 h2
      subst h1
      subst h2
      exact ⟨le_refl _, by simpa using hn⟩
  | j0 + 1, j, m, h => by
    unfold bestFinalNl at h
    cases hn : nlLen (rest.drop (j0 + 1)) with
    | some m' =>
      rw [hn] at h
      injection h with h
      injection h with h1 h2
      subst h1
      subst h2
      exact ⟨le_refl _, hn⟩
    | none =>
      rw [hn] at h
      obtain ⟨h1, h2⟩ := bestFinalNl_spec rest j0 j m h
      exact ⟨Nat.le_succ_of_le h1, h2⟩

theorem take_all_of_le_takeWhile (p : Char → Bool) :
    ∀ (l : List Char) (j : Nat), j ≤ (l.takeWhile p).length →
      (l.take j).all p = true
  | _, 0, _ => by simp
  | [], j + 1, h => by simp
  | c :: l, j + 1, h => by
    have hc : p c = true := by
      by_contra hc
      rw [List.takeWhile_cons, if_neg (by simpa using hc)] at h
      simp at h
    rw [List.takeWhile_cons, if_pos (by simp [hc])] at h
    simp only [List.length_cons, Nat.add_le_add_iff_right] at h
    simp only [List.take_succ_cons, List.all_cons, hc, Bool.true_and]
    exact take_all_of_le_takeWhile p l j h

theorem sepLen_spec (l : List Char) (n : Nat) (h : sepLen l = some n) :
    2 ≤ n ∧ n ≤ l.length ∧ isSepChunk (l.take n) = true := by
  unfold sepLen at h
  cases hk : nlLen l with
  | none => rw [hk] at h; cases h
  | some k =>
    rw [hk] at h
    simp only at h
    cases hb : bestFinalNl (l.drop k) ((l.drop k).takeWhile jsWhitespace).length with
    | none => rw [hb] at h; cases h
    | some jm =>
      obtain ⟨j, m⟩ := jm
      rw [hb] at h
      injection h with h
      obtain ⟨hk1, hk2, hkall, _, hknl⟩ := nlLen_spec l k hk
      obtain ⟨hj, hm⟩ := bestFinalNl_spec (l.drop k) _ j m hb
      obtain ⟨hm1, hm2, hmall, hmlast, _⟩ := nlLen_spec ((l.drop k).drop j) m hm
      have hjlen : j ≤ (l.drop k).length :=
        le_trans hj (List.Sublist.length_le (List.takeWhile_sublist jsWhitespace))
      have hge2 : 2 ≤ n := by omega
      have hlen : n ≤ l.length := by
        rw [List.length_drop] at hjlen
        rw [List.length_drop, List.length_drop] at hm2
        omega
      refine ⟨hge2, hlen, ?_⟩
      have hsplit : l.take n = l.take k ++ ((l.drop k).take j ++ ((l.drop k).drop j).take m) := by
        rw [← h, List.take_add, List.take_add, List.append_assoc, List.drop_drop]
      unfold isSepChunk
      have hall : (l.take n).all jsWhitespace = true := by
        rw [hsplit]
        simp only [List.all_append, Bool.and_eq_true]
        exact ⟨hkall, take_all_of_le_takeWhile jsWhitespace (l.drop k) j hj, hmall⟩
      have hnl : (nlLen (l.take n)).isSome = true := hknl n (by omega)
      have hlast : (l.take n).getLast? = some '\n' := by
        rw [hsplit, List.getLast?_append, List.getLast?_append, hmlast]
        rfl
      rw [hall, hnl, hlast]
      rfl

theorem sepFind_spec :
    ∀ (l : List Char) (i n : Nat), sepFind l = some (i, n) →
      sepLen (l.drop i) = some n
  | [], i, n, h => by simp [sepFind] at h
  | c :: rest, i, n, h => by
    unfold sepFind at h
    cases hs : sepLen (c :: rest) with
    | some n' =>
      rw [hs] at h
      injection h with h
      injection h with h1 h2
      subst h1
      subst h2
      exact hs
    | none =>
      rw [hs] at h
      cases hr : sepFind rest with
      | none => rw [hr] at h; cases h
      | some p =>
        obtain ⟨i', n'⟩ := p
        rw [hr] at h
        injection h with h
        injection h with h1 h2
        subst h1
        subst h2
        exact sepFind_spec rest i' n' hr

theorem sepFind_bounds (l : List Char) (i n : Nat) (h : sepFind l = some (i, n)) :
    2 ≤ n ∧ i + n ≤ l.length := by
  obtain ⟨h2, hlen, _⟩ := sepLen_spec (l.drop i) n (sepFind_spec l i n h)
  rw [List.length_drop] at hlen
  constructor
  · exact h2
  · omega

theorem splitChunks_reconstruct :
    ∀ (fuel : Nat) (l : List Char), l.length < fuel →
      ∃ seps : List (List Char),
        interleave (splitChunks fuel l) seps = l ∧
        (splitChunks fuel l).length = seps.length + 1 ∧
        ∀ s ∈ seps, isSepChunk s = true
  | 0, l, h => absurd h (by omega)
  | fuel + 1, l, hl => by
    cases hsf : sepFind l with
    | none =>
      refine ⟨[], ?_, by simp [splitChunks, hsf], by simp⟩
      simp [splitChunks, hsf, interleave]
    | some p =>
      obtain ⟨i, n⟩ := p
      obtain ⟨hn2, hin⟩ := sepFind_bounds l i n hsf
      have hlen : (l.drop (i + n)).length < fuel := by
        rw [List.length_drop]
        omega
      obtain ⟨seps, hint, hlen2, hsepAll⟩ := splitChunks_reconstruct fuel (l.drop (i + n)) hlen
      have hstep : splitChunks (fuel + 1) l =
          l.take i :: splitChunks fuel (l.drop (i + n)) := by
        simp [splitChunks, hsf]
      refine ⟨(l.drop i).take n :: seps, ?_, ?_, ?_⟩
      · rw [hstep]
        show l.take i ++ (l.drop i).take n ++
          interleave (splitChunks fuel (l.drop (i + n))) seps = l
        rw [hint]
        rw [List.append_assoc]
        have hdd : l.drop (i + n) = ((l.drop i).drop n) := by
          rw [List.drop_drop, Nat.add_comm]
        rw [hdd, List.take_append_drop, List.take_append_drop]
      · rw [hstep]
        simp only [List.length_cons]
        rw [hlen2]
      · intro s hs
        rcases List.mem_cons.mp hs with hh | hh
        · rw [hh]
          exact (sepLen_spec (l.drop i) n (sepFind_spec l i n hsf)).2.2
        · exact hsepAll s hh

/-- Counterexample to C6 as stated: the splitter does not filter out
empty chunks — the body `"a\n\n"` ends in a blank line and the returned
list contains the empty string (`"".split` even yields `[""]`). -/
theorem c6_splitter_counterexample :
    splitIntoParagraphs "a\n\n" = ["a", ""] ∧ "" ∈ splitIntoParagraphs "a\n\n" := by
  exact ⟨by decide, by decide⟩

/-- C6 (amended): `splitIntoParagraphs` returns exactly the chunks of
the blank-line split of the body, each trimmed — possibly empty — in
their order of appearance: every returned string is trimmed (a fixed
point of trimming), the output is the per-chunk trim of the raw split,
and the raw chunks interleaved with blank-line separator strings (all
whitespace, opening and closing with a newline) reconstitute the
original body. -/
theorem c6_splitter_amended (text : String) :
    (∀ s ∈ splitIntoParagraphs text, jsTrim s = s) ∧
    splitIntoParagraphs text = (jsSplitBlank text).map jsTrim ∧
    ∃ seps : List (List Char),
      interleave ((jsSplitBlank text).map String.toList) seps = text.toList ∧
      (jsSplitBlank text).length = seps.length + 1 ∧
      ∀ s ∈ seps, isSepChunk s = true := by
  refine ⟨?_, rfl, ?_⟩
  · intro s hs
    unfold splitIntoParagraphs at hs
    rcases List.mem_map.mp hs with ⟨raw, _, hraw⟩
    rw [← hraw]
    exact jsTrim_idem raw
  · obtain ⟨seps, h1, h2, h3⟩ := splitChunks_reconstruct (text.toList.length + 1)
      text.toList (Nat.lt_succ_self _)
    have hmap : (jsSplitBlank text).map String.toList =
        splitChunks (text.toList.length + 1) text.toList := by
      unfold jsSplitBlank
      rw [List.map_map]
      have hcomp : (String.toList ∘ String.mk) = id := funext (fun _ => rfl)
      rw [hcomp, List.map_id]
    refine ⟨seps, ?_, ?_, h3⟩
    · rw [hmap]
      exact h1
    · unfold jsSplitBlank
      rw [List.length_map]
      exact h2

end ObsidianAI
